import Mathlib

/-!
Shallow embedding of `src/logarray.rs` (packed-integer "log arrays") and proofs
about it.

Conventions of the embedding:

* Byte buffers (`bytes::Bytes`, `&[u8]`, sinks) are `List Nat`, one entry per
  byte; a byte is a value `< 256`.
* `u64` values are `Nat`, with reduction modulo `2 ^ 64` made explicit at every
  operation that can overflow.
* Shift amounts on 64-bit words are reduced modulo 64 (`shl64` / `shr64`).
  This matches the semantics of Rust's `<<` / `>>` on `u64` when overflow
  checks are disabled (release builds): the shift amount is taken modulo the
  bit width.  With overflow checks enabled such a shift panics instead; the
  only place the source reaches a shift amount of 64 is `width == 0`, which is
  analysed explicitly below.
* Fallible operations return `Except`/`Option`; a Rust `panic!` is modelled as
  `Option.none`.
-/

namespace TdbSuccinct

/-- Modulus of 64-bit machine words. -/
def u64Mod : Nat := 2 ^ 64

/-- Rust `u64` left shift `x << k` with the shift amount masked modulo the bit
width and the result wrapped to 64 bits (release-mode semantics). -/
def shl64 (x k : Nat) : Nat := (x <<< (k % 64)) % u64Mod

/-- Rust `u64` logical right shift `x >> k` with the shift amount masked modulo
the bit width (release-mode semantics). -/
def shr64 (x k : Nat) : Nat := x >>> (k % 64)

/-- Number of binary digits of `v` (0 for 0), written with structural fuel so
that the kernel can evaluate it; the first argument is the fuel. -/
def bitLenAux : Nat → Nat → Nat
  | 0, _ => 0
  | fuel + 1, v => if v = 0 then 0 else bitLenAux fuel (v / 2) + 1

/-- Number of binary digits of `v`: the least `w` with `v < 2 ^ w`.  Fuel `v`
always suffices. -/
def bitLen (v : Nat) : Nat := bitLenAux v v

/-- Rust `u64::leading_zeros(v)` for `v < 2 ^ 64`. -/
def clz64 (v : Nat) : Nat := 64 - bitLen v

/-- Big-endian 64-bit read `byteorder::BigEndian::read_u64(&buf[i..])`.
Out-of-range positions read as 0 here; the in-bounds theorems below show the
reads performed by the source stay inside the buffer. -/
def readU64BE (buf : List Nat) (i : Nat) : Nat :=
  buf.getD i 0 * 2 ^ 56 + buf.getD (i + 1) 0 * 2 ^ 48 + buf.getD (i + 2) 0 * 2 ^ 40 +
    buf.getD (i + 3) 0 * 2 ^ 32 + buf.getD (i + 4) 0 * 2 ^ 24 + buf.getD (i + 5) 0 * 2 ^ 16 +
    buf.getD (i + 6) 0 * 2 ^ 8 + buf.getD (i + 7) 0

/-- Big-endian 32-bit read `byteorder::BigEndian::read_u32(&buf[i..])`. -/
def readU32BE (buf : List Nat) (i : Nat) : Nat :=
  buf.getD i 0 * 2 ^ 24 + buf.getD (i + 1) 0 * 2 ^ 16 + buf.getD (i + 2) 0 * 2 ^ 8 +
    buf.getD (i + 3) 0

/-- Big-endian encoding of a 64-bit word as 8 bytes (`BufMut::put_u64`,
`byteorder::BigEndian::write_u64`). -/
def putU64BE (x : Nat) : List Nat :=
  [x / 2 ^ 56 % 256, x / 2 ^ 48 % 256, x / 2 ^ 40 % 256, x / 2 ^ 32 % 256,
   x / 2 ^ 24 % 256, x / 2 ^ 16 % 256, x / 2 ^ 8 % 256, x % 256]

/-- Big-endian encoding of a 32-bit value as 4 bytes
(`byteorder::BigEndian::write_u32`). -/
def putU32BE (x : Nat) : List Nat :=
  [x / 2 ^ 24 % 256, x / 2 ^ 16 % 256, x / 2 ^ 8 % 256, x % 256]

/-- Modelled from the spec: `util::calculate_width` (module `util` is part of
this repository but not under `src/`).  Spec §4.5: the deferred-width builder
tracks `width = max over pushed values of ⌈log2(v+1)⌉` "(treating 0 as width 0,
per the minimal-width rule)"; `⌈log2(v+1)⌉` is exactly the number of binary
digits of `v`. -/
def calculate_width (val : Nat) : Nat := bitLen val

/-- In-memory log array view (`LogArray`): `first`/`len` are `u64`, `width` is
`u8`, `input_buf` is the shared byte buffer. -/
structure LogArray where
  first : Nat
  len : Nat
  width : Nat
  input_buf : List Nat
deriving Repr, DecidableEq

/-- Error type `LogArrayError`. -/
inductive LogArrayError where
  | InputBufferTooSmall (input_buf_size : Nat)
  | WidthTooLarge (width : Nat)
  | UnexpectedInputBufferSize (input_buf_size expected_buf_size len : Nat) (width : Nat)
deriving Repr, DecidableEq

/-- Maximum length storable in a control word: `(1 << 56) - 1`. -/
def MAX_LOGARRAY_LEN : Nat := (1 <<< 56) - 1

/-- Validation `LogArrayError::validate_input_buf_size`: the buffer must hold
at least the 8-byte control word. -/
def LogArrayError.validate_input_buf_size (input_buf_size : Nat) :
    Except LogArrayError Unit :=
  if input_buf_size < 8 then .error (.InputBufferTooSmall input_buf_size) else .ok ()

/-- Validation `LogArrayError::validate_len_and_width`: width at most 64 and
buffer size exactly `(len * width + 127) >> 6 << 3` (data plus control word). -/
def LogArrayError.validate_len_and_width (input_buf_size len width : Nat) :
    Except LogArrayError Unit :=
  if width > 64 then .error (.WidthTooLarge width)
  else
    let expected_buf_size := (len * width + 127) >>> 6 <<< 3
    if input_buf_size ≠ expected_buf_size then
      .error (.UnexpectedInputBufferSize input_buf_size expected_buf_size len width)
    else .ok ()

/-- Validation `LogArrayError::validate_len_and_width_trailing`: like
`validate_len_and_width` but the buffer is allowed to be larger. -/
def LogArrayError.validate_len_and_width_trailing (input_buf_size len width : Nat) :
    Except LogArrayError Unit :=
  if width > 64 then .error (.WidthTooLarge width)
  else
    let expected_buf_size := (len * width + 127) >>> 6 <<< 3
    if input_buf_size < expected_buf_size then
      .error (.UnexpectedInputBufferSize input_buf_size expected_buf_size len width)
    else .ok ()

/-- Control-word decoding `parse_control_word`: returns `(len, width)`. -/
def parse_control_word (buf : List Nat) : Nat × Nat :=
  let len_1 := readU32BE buf 0
  let width := buf.getD 4 0
  let len_2 := readU32BE buf 4 &&& 0xFFFFFF
  let len := (len_2 <<< 32) + len_1
  (len, width)

/-- Decoding plus validation `read_control_word`. -/
def read_control_word (buf : List Nat) (input_buf_size : Nat) :
    Except LogArrayError (Nat × Nat) :=
  let lw := parse_control_word buf
  match LogArrayError.validate_len_and_width input_buf_size lw.1 lw.2 with
  | .error e => .error e
  | .ok _ => .ok lw

/-- Decoding plus trailing validation `read_control_word_trailing`. -/
def read_control_word_trailing (buf : List Nat) (input_buf_size : Nat) :
    Except LogArrayError (Nat × Nat) :=
  let lw := parse_control_word buf
  match LogArrayError.validate_len_and_width_trailing input_buf_size lw.1 lw.2 with
  | .error e => .error e
  | .ok _ => .ok lw

/-- Data-buffer byte count `logarray_length_from_len_width`. -/
def logarray_length_from_len_width (len width : Nat) : Nat :=
  let num_bits := width * len
  let num_u64 := num_bits / 64 + (if num_bits % 64 = 0 then 0 else 1)
  num_u64 * 8

/-- Trailer-form parsing `LogArray::parse`. -/
def LogArray.parse (input_buf : List Nat) : Except LogArrayError LogArray :=
  let input_buf_size := input_buf.length
  match LogArrayError.validate_input_buf_size input_buf_size with
  | .error e => .error e
  | .ok _ =>
    match read_control_word (input_buf.drop (input_buf_size - 8)) input_buf_size with
    | .error e => .error e
    | .ok lw => .ok { first := 0, len := lw.1, width := lw.2, input_buf }

/-- Header-first parsing `LogArray::parse_header_first`: the control word is at
the front; the view wraps the following data bytes and the remainder is handed
back. -/
def LogArray.parse_header_first (input_buf : List Nat) :
    Except LogArrayError (LogArray × List Nat) :=
  let input_buf_size := input_buf.length
  match LogArrayError.validate_input_buf_size input_buf_size with
  | .error e => .error e
  | .ok _ =>
    match read_control_word_trailing (input_buf.take 8) input_buf_size with
    | .error e => .error e
    | .ok lw =>
      let num_bytes := logarray_length_from_len_width lw.1 lw.2
      let rest := (input_buf.drop 8).drop num_bytes
      .ok ({ first := 0, len := lw.1, width := lw.2,
             input_buf := (input_buf.drop 8).take num_bytes }, rest)

/-- Indexed access `LogArray::entry`: reads the element at `index` out of one
word, or two words when the element straddles a word boundary. -/
def LogArray.entry (a : LogArray) (index : Nat) : Nat :=
  let bit_index := a.width * (a.first + index)
  let byte_index := bit_index >>> 6 <<< 3
  let first_word := readU64BE a.input_buf byte_index
  let leading_zeros := 64 - a.width
  let offset := bit_index &&& 0b111111
  if offset + a.width ≤ 64 then
    shr64 (shl64 first_word offset) leading_zeros
  else
    let second_word := readU64BE a.input_buf (byte_index + 8)
    let first_width := 64 - offset
    let second_width := a.width - first_width
    let first_part := shl64 (shr64 (shl64 first_word offset) offset) second_width
    let second_part := shr64 second_word (64 - second_width)
    first_part ||| second_part

/-- The element sequence produced by `LogArrayIterator` (`iter()`):
`entry 0, …, entry (len - 1)`. -/
def LogArray.iter (a : LogArray) : List Nat := (List.range a.len).map a.entry

/-- Range view `LogArray::slice`; `none` models the bounds-violation panic. -/
def LogArray.slice (a : LogArray) (offset len : Nat) : Option LogArray :=
  if a.len < offset + len then none
  else some { first := a.first + offset, len := len, width := a.width, input_buf := a.input_buf }

/-- Eager in-memory builder `LogArrayBufBuilder` over a growable byte sink. -/
structure LogArrayBufBuilder where
  buf : List Nat
  width : Nat
  current : Nat
  offset : Nat
  count : Nat
deriving Repr, DecidableEq

/-- Constructor `LogArrayBufBuilder::new`. -/
def LogArrayBufBuilder.new (buf : List Nat) (width : Nat) : LogArrayBufBuilder :=
  { buf := buf, width := width, current := 0, offset := 0, count := 0 }

/-- Push `LogArrayBufBuilder::push`; `none` models the panic
"expected value (v) to fit in (width) bits". -/
def LogArrayBufBuilder.push (b : LogArrayBufBuilder) (val : Nat) :
    Option LogArrayBufBuilder :=
  let leading_zeros := 64 - b.width
  if clz64 val < leading_zeros then none
  else
    let count := b.count + 1
    let current := b.current ||| shr64 (shl64 val leading_zeros) b.offset
    let offset := b.offset + b.width
    if 64 ≤ offset then
      let buf := b.buf ++ putU64BE current
      let offset2 := offset - 64
      let current2 := if offset2 = 0 then 0 else shl64 val (64 - offset2)
      some { buf := buf, width := b.width, current := current2, offset := offset2, count := count }
    else
      some { buf := b.buf, width := b.width, current := current, offset := offset, count := count }

/-- Bulk push `LogArrayBufBuilder::push_vec`. -/
def LogArrayBufBuilder.push_vec (b : LogArrayBufBuilder) (vals : List Nat) :
    Option LogArrayBufBuilder :=
  match vals with
  | [] => some b
  | val :: rest => (b.push val).bind fun b2 => b2.push_vec rest

/-- Flush `LogArrayBufBuilder::finalize_data`: emit the staging word iff bits
remain in it (`count * width % 64 ≠ 0`). -/
def LogArrayBufBuilder.finalize_data (b : LogArrayBufBuilder) : LogArrayBufBuilder :=
  if b.count * b.width &&& 0b111111 ≠ 0 then { b with buf := b.buf ++ putU64BE b.current } else b

/-- Control-word encoding `control_word`; `none` models the panic
"length is too large for control word of a logarray".  The `% 256` makes the
`u8` storage of the width byte explicit. -/
def control_word (len width : Nat) : Option (List Nat) :=
  if len > MAX_LOGARRAY_LEN then none
  else
    let len_1 := len &&& 0xFFFFFFFF
    let len_2 := (len >>> 32) &&& 0xFFFFFF
    some ((putU32BE len_1 ++ putU32BE len_2).set 4 (width % 256))

/-- Finalization `LogArrayBufBuilder::finalize`: flush the staging word, append
the control word, and yield the sink. -/
def LogArrayBufBuilder.finalize (b : LogArrayBufBuilder) : Option (List Nat) :=
  let b2 := b.finalize_data
  (control_word b2.count b2.width).map fun cw => b2.buf ++ cw

/-- Finalization without a control word
(`LogArrayBufBuilder::finalize_without_control_word`). -/
def LogArrayBufBuilder.finalize_without_control_word (b : LogArrayBufBuilder) : List Nat :=
  b.finalize_data.buf

/-- Deferred-width builder `LateLogArrayBufBuilder`: buffers the values and
tracks the running maximal width. -/
structure LateLogArrayBufBuilder where
  buf : List Nat
  vals : List Nat
  width : Nat
deriving Repr, DecidableEq

/-- Constructor `LateLogArrayBufBuilder::new`. -/
def LateLogArrayBufBuilder.new (buf : List Nat) : LateLogArrayBufBuilder :=
  { buf := buf, vals := [], width := 0 }

/-- Push `LateLogArrayBufBuilder::push`. -/
def LateLogArrayBufBuilder.push (b : LateLogArrayBufBuilder) (val : Nat) :
    LateLogArrayBufBuilder :=
  let width := calculate_width val
  { b with vals := b.vals ++ [val], width := if b.width < width then width else b.width }

/-- Bulk push `LateLogArrayBufBuilder::push_vec`. -/
def LateLogArrayBufBuilder.push_vec (b : LateLogArrayBufBuilder) (vals : List Nat) :
    LateLogArrayBufBuilder :=
  match vals with
  | [] => b
  | val :: rest => (b.push val).push_vec rest

/-- Finalization `LateLogArrayBufBuilder::finalize` (trailer layout): feed all
buffered values through an eager builder and finalize with a control word. -/
def LateLogArrayBufBuilder.finalize (b : LateLogArrayBufBuilder) : Option (List Nat) :=
  ((LogArrayBufBuilder.new b.buf b.width).push_vec b.vals).bind LogArrayBufBuilder.finalize

/-- Finalization `LateLogArrayBufBuilder::finalize_header_first`: control word
first, then the data words, no trailer. -/
def LateLogArrayBufBuilder.finalize_header_first (b : LateLogArrayBufBuilder) :
    Option (List Nat) :=
  (control_word b.vals.length b.width).bind fun cw =>
    ((LogArrayBufBuilder.new (b.buf ++ cw) b.width).push_vec b.vals).map
      LogArrayBufBuilder.finalize_without_control_word

/-- The error kind carried by the `io::Error` the file builder's push returns
for an over-wide value. -/
inductive IoErrorKind where
  | InvalidData
deriving Repr, DecidableEq

/-- File-backed eager builder `LogArrayFileBuilder`; the sink is modelled as
the list of bytes written so far. -/
structure LogArrayFileBuilder where
  file : List Nat
  width : Nat
  current : Nat
  offset : Nat
  count : Nat
deriving Repr, DecidableEq

/-- Constructor `LogArrayFileBuilder::new`. -/
def LogArrayFileBuilder.new (w : List Nat) (width : Nat) : LogArrayFileBuilder :=
  { file := w, width := width, current := 0, offset := 0, count := 0 }

/-- Push `LogArrayFileBuilder::push`.  The word write `util::write_u64` (module
`util` is part of this repository but not under `src/`) is modelled from the
spec as appending the word's 8 big-endian bytes to the sink.  The Rust method
mutates `self` and returns `io::Result<()>`; here it returns the updated state
together with the result, so an `Err` visibly leaves the state unchanged. -/
def LogArrayFileBuilder.push (b : LogArrayFileBuilder) (val : Nat) :
    LogArrayFileBuilder × Except IoErrorKind Unit :=
  let leading_zeros := 64 - b.width
  if clz64 val < leading_zeros then (b, .error .InvalidData)
  else
    let count := b.count + 1
    let current := b.current ||| shr64 (shl64 val leading_zeros) b.offset
    let offset := b.offset + b.width
    if 64 ≤ offset then
      let file := b.file ++ putU64BE current
      let offset2 := offset - 64
      let current2 := if offset2 = 0 then 0 else shl64 val (64 - offset2)
      ({ file := file, width := b.width, current := current2, offset := offset2, count := count },
       .ok ())
    else
      ({ file := b.file, width := b.width, current := current, offset := offset, count := count },
       .ok ())

/-- Streaming decoder state `LogArrayDecoder`. -/
structure LogArrayDecoder where
  current : Nat
  width : Nat
  offset : Nat
  remaining : Nat
deriving Repr, DecidableEq

/-- Constructor `LogArrayDecoder::new_unchecked`: `offset = 64` makes the first
`decode` ignore `current` and read a fresh word. -/
def LogArrayDecoder.new_unchecked (width remaining : Nat) : LogArrayDecoder :=
  { current := 0, offset := 64, width := width, remaining := remaining }

/-- One pull `LogArrayDecoder::decode` on the queued `bytes`.  Returns the
optional decoded element, the updated decoder, and the remaining queue
(`bytes.clear()` on exhaustion, `split_to(8)` on a word read). -/
def LogArrayDecoder.decode (d : LogArrayDecoder) (bytes : List Nat) :
    Option Nat × LogArrayDecoder × List Nat :=
  if d.remaining = 0 then (none, d, [])
  else
    let first_word := d.current
    let offset := d.offset
    let width := d.width
    let leading_zeros := 64 - width
    if offset + width ≤ 64 then
      (some (shr64 (shl64 first_word offset) leading_zeros),
       { d with offset := offset + width, remaining := d.remaining - 1 }, bytes)
    else if bytes.length < 8 then (none, d, bytes)
    else
      let second_word := readU64BE bytes 0
      let rest := bytes.drop 8
      if offset = 64 then
        (some (shr64 second_word leading_zeros),
         { current := second_word, width := width, offset := width,
           remaining := d.remaining - 1 }, rest)
      else
        let first_width := 64 - offset
        let second_width := width - first_width
        let first_part := shl64 (shr64 (shl64 first_word offset) offset) second_width
        let second_part := shr64 second_word (64 - second_width)
        (some (first_part ||| second_part),
         { current := second_word, width := width, offset := second_width,
           remaining := d.remaining - 1 }, rest)

/-- Repeated pulls of `LogArrayDecoder::decode`, as a `FramedRead` consumer
performs them: stop on the first `None`.  The fuel bounds the number of
pulls; each successful pull decrements `remaining`, so fuel `remaining`
suffices to drain the decoder. -/
def decodeRun : Nat → LogArrayDecoder → List Nat → List Nat × LogArrayDecoder × List Nat
  | 0, d, bytes => ([], d, bytes)
  | fuel + 1, d, bytes =>
    match d.decode bytes with
    | (some v, d2, rest) =>
      let r := decodeRun fuel d2 rest
      (v :: r.1, r.2.1, r.2.2)
    | (none, d2, rest) => ([], d2, rest)

/-- Monotonic wrapper `MonotonicLogArray`.  `from_logarray` checks
monotonicity only under `debug_assertions`; the ordering assumption therefore
appears as a hypothesis of the theorems below. -/
structure MonotonicLogArray where
  toLogArray : LogArray
deriving Repr, DecidableEq

/-- Constructor `MonotonicLogArray::from_logarray`. -/
def MonotonicLogArray.from_logarray (logarray : LogArray) : MonotonicLogArray :=
  ⟨logarray⟩

/-- Length accessor `MonotonicLogArray::len`. -/
def MonotonicLogArray.len (m : MonotonicLogArray) : Nat := m.toLogArray.len

/-- Emptiness accessor `MonotonicLogArray::is_empty`. -/
def MonotonicLogArray.is_empty (m : MonotonicLogArray) : Bool := m.toLogArray.len = 0

/-- Element accessor `MonotonicLogArray::entry`. -/
def MonotonicLogArray.entry (m : MonotonicLogArray) (index : Nat) : Nat :=
  m.toLogArray.entry index

/-- The `while min <= max` binary-search loop of
`MonotonicLogArray::nearest_index_of`, with structural fuel (first argument)
bounding the iteration count.  When the fuel runs out the loop-exit value
`(min + max) / 2 + 1` is returned; fuel at least `max + 1 - min` always
reaches the real exit, and the caller supplies `len`, which dominates the
initial measure. -/
def MonotonicLogArray.nearestAux (m : MonotonicLogArray) (element : Nat) :
    Nat → Nat → Nat → Nat
  | 0, lo, hi => (lo + hi) / 2 + 1
  | fuel + 1, lo, hi =>
    if lo ≤ hi then
      let mid := (lo + hi) / 2
      if element = m.entry mid then mid
      else if m.entry mid < element then m.nearestAux element fuel (mid + 1) hi
      else if mid = 0 then 0
      else m.nearestAux element fuel lo (mid - 1)
    else (lo + hi) / 2 + 1

/-- Binary search `MonotonicLogArray::nearest_index_of`. -/
def MonotonicLogArray.nearest_index_of (m : MonotonicLogArray) (element : Nat) : Nat :=
  if m.is_empty then 0
  else m.nearestAux element m.len 0 (m.len - 1)

/-- Decidable equality for `Except`, so that concrete parses can be settled by
`decide`. -/
instance {ε α : Type} [DecidableEq ε] [DecidableEq α] : DecidableEq (Except ε α) := fun a b =>
  match a, b with
  | .error e1, .error e2 =>
    if h : e1 = e2 then .isTrue (by rw [h]) else .isFalse (by simp [h])
  | .ok v1, .ok v2 =>
    if h : v1 = v2 then .isTrue (by rw [h]) else .isFalse (by simp [h])
  | .error _, .ok _ => .isFalse (by simp)
  | .ok _, .error _ => .isFalse (by simp)

/-- Safety predicate for `entry` at `index`: the first-word read, and the
second-word read when the element straddles a word boundary, lie inside the
backing buffer. -/
def entryInBounds (a : LogArray) (index : Nat) : Prop :=
  (a.width * (a.first + index)) >>> 6 <<< 3 + 8 ≤ a.input_buf.length ∧
  (¬ ((a.width * (a.first + index)) &&& 0b111111) + a.width ≤ 64 →
    (a.width * (a.first + index)) >>> 6 <<< 3 + 16 ≤ a.input_buf.length)

/-- The backing buffer covers all data words of the view:
`8 · ⌈width · (first + len) / 64⌉` bytes. -/
def accessWithinData (a : LogArray) : Prop :=
  8 * ((a.width * (a.first + a.len) + 63) / 64) ≤ a.input_buf.length

/-- Closure of a view under repeated (successful) slicing. -/
inductive SliceOf : LogArray → LogArray → Prop where
  | refl (a : LogArray) : SliceOf a a
  | step {a s s2 : LogArray} (o n : Nat) (h : SliceOf s a) (h2 : s.slice o n = some s2) :
      SliceOf s2 a

/-- Specification of the streaming decoder's state after `i` successful pulls
over a data stream of `len` elements of width `w`: the most recent word read
is the one holding bit `w·i - 1`, and `offset` points just past it. -/
def decoderAt (w len i : Nat) (data : List Nat) : LogArrayDecoder :=
  if i = 0 then LogArrayDecoder.new_unchecked w len
  else { current := readU64BE data (8 * ((w * i - 1) / 64)), width := w,
         offset := (w * i - 1) % 64 + 1, remaining := len - i }

/-- Bytes the decoder has consumed from the stream after `i` successful
pulls: all words up to the one holding bit `w·i - 1`. -/
def consumedBytes (w i : Nat) : Nat := if i = 0 then 0 else 8 * ((w * i - 1) / 64 + 1)

/-- The eager builder's running invariant over a width-`w` builder that
started from an empty sink: offset and emitted-byte count are determined by
`count * w`, and the staging word is zero beyond the first `offset` bits. -/
def BuilderInv (w : Nat) (b : LogArrayBufBuilder) : Prop :=
  b.width = w ∧ b.offset = b.count * w % 64 ∧ b.buf.length = 8 * (b.count * w / 64) ∧
    b.current % 2 ^ (64 - b.offset) = 0 ∧ b.current < 2 ^ 64

/-! ## Theorems -/

/-- C1 (code bug at `vs = [0]`): building `[0]` with the deferred-width builder
produces the bare control word `[0,0,0,1,0,0,0,0]`; parsing it succeeds with
`length = 1` and `width = 0` as the claim states, but iterating yields
`[4294967296]` — the control word read back as the first data word — instead of
`[0]`.  (`entry` reaches the shift `first_word << 0 >> 64`; amount 64 is masked
to 0 in release builds and panics under debug assertions.)  The repository's
own test `late_logarray_just_zero` asserts `entry(0) = 0` on exactly this
input. -/
theorem claim_C1 :
    ((LateLogArrayBufBuilder.new []).push 0).finalize = some [0, 0, 0, 1, 0, 0, 0, 0] ∧
    (LogArray.parse [0, 0, 0, 1, 0, 0, 0, 0]).map (fun a => (a.len, a.width, a.iter)) =
      .ok (1, 0, [4294967296]) ∧
    ([4294967296] : List Nat) ≠ [0] :=
  ⟨by decide, by decide, by decide⟩

/-- C4 (code bug): the buffer `[0,0,0,1,0,0,0,0]` parses successfully with
`width = 0` and `length = 1`, but `entry 0` returns `4294967296` (the control
word itself, read as the first data word) rather than 0: the decode shift
amount `leading_zeros = 64 - width` equals 64, not `< 64` as the claim
states. -/
theorem claim_C4 :
    LogArray.parse [0, 0, 0, 1, 0, 0, 0, 0] =
      .ok { first := 0, len := 1, width := 0, input_buf := [0, 0, 0, 1, 0, 0, 0, 0] } ∧
    LogArray.entry { first := 0, len := 1, width := 0, input_buf := [0, 0, 0, 1, 0, 0, 0, 0] } 0 =
      4294967296 ∧
    (4294967296 : Nat) ≠ 0 :=
  ⟨by decide, by decide, by decide⟩

/-- C7: a slice taken with `offset + len` within bounds succeeds, has the
requested length, the parent's width, shares the parent's backing buffer, and
`slice.entry j = parent.entry (offset + j)` for every `j < len`. -/
theorem claim_C7 (a : LogArray) (o n : Nat) (h : o + n ≤ a.len) :
    ∃ s, a.slice o n = some s ∧ s.len = n ∧ s.width = a.width ∧
      s.input_buf = a.input_buf ∧ ∀ j, j < n → s.entry j = a.entry (o + j) := by
  have hs : a.slice o n =
      some { first := a.first + o, len := n, width := a.width, input_buf := a.input_buf } := by
    simp [LogArray.slice, Nat.not_lt.2 h]
  refine ⟨_, hs, rfl, rfl, rfl, fun j _ => ?_⟩
  simp [LogArray.entry, Nat.add_assoc]

/-- Witness for C7 at a concrete 17-bit array of length 3 sliced to `[1, 2)`:
the slice succeeds and its entries match the parent's shifted entries. -/
theorem claim_C7_witness :
    (LogArray.slice
        { first := 0, len := 3, width := 17,
          input_buf := [0, 0, 128, 0, 128, 0, 96, 0, 0, 0, 0, 3, 17, 0, 0, 0] } 1 2).isSome ∧
    ((LogArray.slice
        { first := 0, len := 3, width := 17,
          input_buf := [0, 0, 128, 0, 128, 0, 96, 0, 0, 0, 0, 3, 17, 0, 0, 0] } 1 2).getD
      { first := 0, len := 3, width := 17,
        input_buf := [0, 0, 128, 0, 128, 0, 96, 0, 0, 0, 0, 3, 17, 0, 0, 0] }).entry 1 =
      LogArray.entry
        { first := 0, len := 3, width := 17,
          input_buf := [0, 0, 128, 0, 128, 0, 96, 0, 0, 0, 0, 3, 17, 0, 0, 0] } 2 := by
  obtain ⟨s, hs, _, _, _, he⟩ :=
    claim_C7
      { first := 0, len := 3, width := 17,
        input_buf := [0, 0, 128, 0, 128, 0, 96, 0, 0, 0, 0, 3, 17, 0, 0, 0] } 1 2 (by decide)
  rw [hs]
  exact ⟨rfl, he 1 (by decide)⟩

/-- The control-word length limit is `2 ^ 56 - 1`. -/
theorem max_len_eq : MAX_LOGARRAY_LEN = 2 ^ 56 - 1 := by
  simp [MAX_LOGARRAY_LEN, Nat.shiftLeft_eq]

/-- C5: for `length ≤ 2^56 - 1` and a `u8` width, decoding the encoded control
word returns `(length, width)` exactly; encoding fails (panics) precisely when
`length > 2^56 - 1`; and the concrete large control word from the spec's
boundary scenario comes out byte-for-byte. -/
theorem claim_C5 (len width : Nat) (hw : width < 256) :
    (len ≤ 2 ^ 56 - 1 →
      ∃ cw, control_word len width = some cw ∧ parse_control_word cw = (len, width)) ∧
    (control_word len width = none ↔ 2 ^ 56 - 1 < len) ∧
    control_word 0xFFFFFFFFFFFFFF 32 = some [255, 255, 255, 255, 32, 255, 255, 255] := by
  refine ⟨?_, ?_, by decide⟩
  · intro hlen
    have hmax : ¬ MAX_LOGARRAY_LEN < len := by rw [max_len_eq]; omega
    refine ⟨_, by rw [control_word, if_neg hmax], ?_⟩
    have h1 : len &&& 0xFFFFFFFF = len % 2 ^ 32 := by
      have h := Nat.and_pow_two_sub_one_eq_mod len 32
      norm_num at h ⊢
      exact h
    have h2 : (len >>> 32) &&& 0xFFFFFF = len / 2 ^ 32 := by
      have h := Nat.and_pow_two_sub_one_eq_mod (len >>> 32) 24
      rw [Nat.shiftRight_eq_div_pow] at h
      rw [Nat.shiftRight_eq_div_pow]
      have hlt : len / 2 ^ 32 < 2 ^ 24 := by
        apply Nat.div_lt_of_lt_mul
        norm_num
        omega
      norm_num at h ⊢
      omega
    rw [h1, h2]
    simp only [parse_control_word, putU32BE, readU32BE, List.cons_append, List.nil_append,
      List.set, List.getD_cons_zero, List.getD_cons_succ, Nat.shiftLeft_eq]
    have hand : ∀ x : Nat, x &&& 0xFFFFFF = x % 2 ^ 24 := by
      intro x
      have h := Nat.and_pow_two_sub_one_eq_mod x 24
      norm_num at h ⊢
      exact h
    rw [hand]
    rw [Prod.mk.injEq]
    norm_num
    constructor
    · omega
    · omega
  · constructor
    · intro hnone
      by_contra hlt
      push_neg at hlt
      have hmax : ¬ MAX_LOGARRAY_LEN < len := by rw [max_len_eq]; omega
      simp [control_word, if_neg hmax] at hnone
    · intro hlt
      have hmax : MAX_LOGARRAY_LEN < len := by rw [max_len_eq]; omega
      simp [control_word, if_pos hmax]

/-- Witness for C5 at the spec's boundary scenario
`(length, width) = (0x00FF_FFFF_FFFF_FFFF, 32)`. -/
theorem claim_C5_witness :
    (0xFFFFFFFFFFFFFF : Nat) ≤ 2 ^ 56 - 1 ∧
    control_word 0xFFFFFFFFFFFFFF 32 = some [255, 255, 255, 255, 32, 255, 255, 255] ∧
    parse_control_word [255, 255, 255, 255, 32, 255, 255, 255] = (0xFFFFFFFFFFFFFF, 32) := by
  have h := claim_C5 0xFFFFFFFFFFFFFF 32 (by decide)
  obtain ⟨cw, hcw, hp⟩ := h.1 (by decide)
  have hc : cw = [255, 255, 255, 255, 32, 255, 255, 255] := by
    have h2 := h.2.2
    rw [hcw] at h2
    exact Option.some.inj h2
  rw [hc] at hp
  exact ⟨by decide, h.2.2, hp⟩

/-- The expected-size formula of the validator equals the spec's
`⌈(len·width + 64)/64⌉ · 8`. -/
theorem expected_size_eq (L : Nat) : (L + 127) >>> 6 <<< 3 = (L + 64 + 63) / 64 * 8 := by
  rw [Nat.shiftRight_eq_div_pow, Nat.shiftLeft_eq]

/-- Parsing a buffer of fewer than 8 bytes reports it too small. -/
theorem parse_too_small {buf : List Nat} (h : buf.length < 8) :
    LogArray.parse buf = .error (.InputBufferTooSmall buf.length) := by
  simp [LogArray.parse, LogArrayError.validate_input_buf_size, h]

/-- Parsing reports a trailer width above 64. -/
theorem parse_width_too_large {buf : List Nat} (h8 : ¬ buf.length < 8)
    (hw : 64 < (parse_control_word (buf.drop (buf.length - 8))).2) :
    LogArray.parse buf =
      .error (.WidthTooLarge (parse_control_word (buf.drop (buf.length - 8))).2) := by
  simp [LogArray.parse, LogArrayError.validate_input_buf_size, h8,
    read_control_word, LogArrayError.validate_len_and_width, hw]

/-- Parsing reports a buffer whose size disagrees with the trailer. -/
theorem parse_size_mismatch {buf : List Nat} (h8 : ¬ buf.length < 8)
    (hw : ¬ 64 < (parse_control_word (buf.drop (buf.length - 8))).2)
    (hs : buf.length ≠ ((parse_control_word (buf.drop (buf.length - 8))).1 *
      (parse_control_word (buf.drop (buf.length - 8))).2 + 127) >>> 6 <<< 3) :
    LogArray.parse buf =
      .error (.UnexpectedInputBufferSize buf.length
        (((parse_control_word (buf.drop (buf.length - 8))).1 *
          (parse_control_word (buf.drop (buf.length - 8))).2 + 127) >>> 6 <<< 3)
        (parse_control_word (buf.drop (buf.length - 8))).1
        (parse_control_word (buf.drop (buf.length - 8))).2) := by
  have hv : LogArrayError.validate_len_and_width buf.length
      (parse_control_word (buf.drop (buf.length - 8))).1
      (parse_control_word (buf.drop (buf.length - 8))).2 =
      .error (.UnexpectedInputBufferSize buf.length
        (((parse_control_word (buf.drop (buf.length - 8))).1 *
          (parse_control_word (buf.drop (buf.length - 8))).2 + 127) >>> 6 <<< 3)
        (parse_control_word (buf.drop (buf.length - 8))).1
        (parse_control_word (buf.drop (buf.length - 8))).2) := by
    rw [LogArrayError.validate_len_and_width, if_neg hw]
    exact if_pos hs
  simp only [LogArray.parse, read_control_word, LogArrayError.validate_input_buf_size,
    if_neg h8, hv]

/-- Parsing succeeds on a size-consistent buffer, with `first = 0` and the
decoded length and width. -/
theorem parse_ok {buf : List Nat} (h8 : ¬ buf.length < 8)
    (hw : ¬ 64 < (parse_control_word (buf.drop (buf.length - 8))).2)
    (hs : buf.length = ((parse_control_word (buf.drop (buf.length - 8))).1 *
      (parse_control_word (buf.drop (buf.length - 8))).2 + 127) >>> 6 <<< 3) :
    LogArray.parse buf =
      .ok { first := 0, len := (parse_control_word (buf.drop (buf.length - 8))).1,
            width := (parse_control_word (buf.drop (buf.length - 8))).2, input_buf := buf } := by
  have hv : LogArrayError.validate_len_and_width buf.length
      (parse_control_word (buf.drop (buf.length - 8))).1
      (parse_control_word (buf.drop (buf.length - 8))).2 = .ok () := by
    rw [LogArrayError.validate_len_and_width, if_neg hw]
    exact if_neg (by simpa using hs)
  simp only [LogArray.parse, read_control_word, LogArrayError.validate_input_buf_size,
    if_neg h8, hv]

/-- C6: `LogArray::parse` fails with `InputBufferTooSmall(n)` exactly when the
buffer size `n` is below 8; otherwise with `WidthTooLarge(w)` exactly when the
decoded trailer width exceeds 64; otherwise with `UnexpectedInputBufferSize`
exactly when the size differs from `⌈(len·width + 64)/64⌉ · 8`; otherwise it
succeeds with `first = 0` and the decoded length and width.  The spec's three
concrete error scenarios evaluate as stated. -/
theorem claim_C6 (buf : List Nat) :
    (LogArray.parse buf = .error (.InputBufferTooSmall buf.length) ↔ buf.length < 8) ∧
    (8 ≤ buf.length →
      ((LogArray.parse buf =
          .error (.WidthTooLarge (parse_control_word (buf.drop (buf.length - 8))).2)) ↔
        64 < (parse_control_word (buf.drop (buf.length - 8))).2)) ∧
    (8 ≤ buf.length → (parse_control_word (buf.drop (buf.length - 8))).2 ≤ 64 →
      ((LogArray.parse buf =
          .error (.UnexpectedInputBufferSize buf.length
            (((parse_control_word (buf.drop (buf.length - 8))).1 *
                (parse_control_word (buf.drop (buf.length - 8))).2 + 64 + 63) / 64 * 8)
            (parse_control_word (buf.drop (buf.length - 8))).1
            (parse_control_word (buf.drop (buf.length - 8))).2)) ↔
        buf.length ≠ ((parse_control_word (buf.drop (buf.length - 8))).1 *
            (parse_control_word (buf.drop (buf.length - 8))).2 + 64 + 63) / 64 * 8)) ∧
    (8 ≤ buf.length → (parse_control_word (buf.drop (buf.length - 8))).2 ≤ 64 →
      buf.length = ((parse_control_word (buf.drop (buf.length - 8))).1 *
          (parse_control_word (buf.drop (buf.length - 8))).2 + 64 + 63) / 64 * 8 →
      LogArray.parse buf =
        .ok { first := 0, len := (parse_control_word (buf.drop (buf.length - 8))).1,
              width := (parse_control_word (buf.drop (buf.length - 8))).2, input_buf := buf }) ∧
    LogArray.parse [0, 0, 0] = .error (.InputBufferTooSmall 3) ∧
    LogArray.parse [0, 0, 0, 0, 65, 0, 0, 0] = .error (.WidthTooLarge 65) ∧
    LogArray.parse [0, 0, 0, 1, 17, 0, 0, 0] = .error (.UnexpectedInputBufferSize 8 16 1 17) := by
  have hexp := expected_size_eq ((parse_control_word (buf.drop (buf.length - 8))).1 *
    (parse_control_word (buf.drop (buf.length - 8))).2)
  refine ⟨?_, ?_, ?_, ?_, by decide, by decide, by decide⟩
  · constructor
    · intro hEq
      by_contra h8
      by_cases hw : 64 < (parse_control_word (buf.drop (buf.length - 8))).2
      · rw [parse_width_too_large h8 hw] at hEq
        simp at hEq
      · by_cases hs : buf.length = ((parse_control_word (buf.drop (buf.length - 8))).1 *
            (parse_control_word (buf.drop (buf.length - 8))).2 + 127) >>> 6 <<< 3
        · rw [parse_ok h8 hw hs] at hEq
          simp at hEq
        · rw [parse_size_mismatch h8 hw hs] at hEq
          simp at hEq
    · intro h
      exact parse_too_small h
  · intro h8
    constructor
    · intro hEq
      by_contra hw
      have h8n : ¬ buf.length < 8 := by omega
      by_cases hs : buf.length = ((parse_control_word (buf.drop (buf.length - 8))).1 *
          (parse_control_word (buf.drop (buf.length - 8))).2 + 127) >>> 6 <<< 3
      · rw [parse_ok h8n hw hs] at hEq
        simp at hEq
      · rw [parse_size_mismatch h8n hw hs] at hEq
        simp at hEq
    · intro hw
      exact parse_width_too_large (by omega) hw
  · intro h8 hw64
    have h8n : ¬ buf.length < 8 := by omega
    have hw : ¬ 64 < (parse_control_word (buf.drop (buf.length - 8))).2 := by omega
    constructor
    · intro hEq hs
      rw [parse_ok h8n hw (by rw [hexp]; exact hs)] at hEq
      simp at hEq
    · intro hs
      have h := parse_size_mismatch h8n hw (by rw [hexp]; exact hs)
      rw [h, hexp]
  · intro h8 hw64 hs
    have h8n : ¬ buf.length < 8 := by omega
    have hw : ¬ 64 < (parse_control_word (buf.drop (buf.length - 8))).2 := by omega
    exact parse_ok h8n hw (by rw [hexp]; exact hs)

/-- Witness for C6 on a valid 16-byte trailer-form buffer (width 17, length 3):
the successful-parse branch of the claim applies. -/
theorem claim_C6_witness :
    LogArray.parse [0, 0, 128, 0, 128, 0, 96, 0, 0, 0, 0, 3, 17, 0, 0, 0] =
      .ok { first := 0, len := 3, width := 17,
            input_buf := [0, 0, 128, 0, 128, 0, 96, 0, 0, 0, 0, 3, 17, 0, 0, 0] } := by
  have h := (claim_C6 [0, 0, 128, 0, 128, 0, 96, 0, 0, 0, 0, 3, 17, 0, 0, 0]).2.2.2.1
    (by decide) (by decide) (by decide)
  exact h

/-- C9: a value that does not fit in the builder's width
(`leading_zeros val < 64 - width`) makes the in-memory builder's `push` panic
(modelled `none`), while the file builder's `push` returns a recoverable
`io::Error` of kind `InvalidData` and leaves the builder state unchanged. -/
theorem claim_C9 (val : Nat) (b : LogArrayBufBuilder) (fb : LogArrayFileBuilder)
    (h1 : clz64 val < 64 - b.width) (h2 : clz64 val < 64 - fb.width) :
    b.push val = none ∧ fb.push val = (fb, .error .InvalidData) :=
  ⟨by simp [LogArrayBufBuilder.push, h1], by simp [LogArrayFileBuilder.push, h2]⟩

/-- Witness for C9 at width 3 and value 8 (the spec's error scenario
"builder width=3, push(8)"). -/
theorem claim_C9_witness :
    clz64 8 < 64 - (LogArrayBufBuilder.new [] 3).width ∧
    (LogArrayBufBuilder.new [] 3).push 8 = none ∧
    (LogArrayFileBuilder.new [] 3).push 8 = (LogArrayFileBuilder.new [] 3, .error .InvalidData) := by
  have h :=
    claim_C9 8 (LogArrayBufBuilder.new [] 3) (LogArrayFileBuilder.new [] 3) (by decide) (by decide)
  exact ⟨by decide, h.1, h.2⟩

/-- When `v` does not occur in the array, the binary-search loop returns the
lower-bound position: every index below the result holds an element `< v` and
every index from the result on holds an element `> v`. -/
theorem nearestAux_absent (m : MonotonicLogArray) (v : Nat)
    (mono : ∀ i j, i ≤ j → j < m.len → m.entry i ≤ m.entry j)
    (habs : ¬ ∃ i, i < m.len ∧ m.entry i = v) :
    ∀ fuel lo hi, hi < m.len → lo ≤ hi + 1 → hi + 1 - lo ≤ fuel →
      (∀ i, i < lo → m.entry i < v) →
      (∀ i, hi < i → i < m.len → v < m.entry i) →
      m.nearestAux v fuel lo hi ≤ m.len ∧
      (∀ i, i < m.nearestAux v fuel lo hi → m.entry i < v) ∧
      (∀ i, m.nearestAux v fuel lo hi ≤ i → i < m.len → v < m.entry i) := by
  intro fuel
  induction fuel with
  | zero =>
    intro lo hi hhi hlohi hfuel hlow hhigh
    have hr : m.nearestAux v 0 lo hi = hi + 1 := by
      simp only [MonotonicLogArray.nearestAux]
      omega
    rw [hr]
    exact ⟨by omega, fun i hi2 => hlow i (by omega), fun i hi2 hi3 => hhigh i (by omega) hi3⟩
  | succ fuel ih =>
    intro lo hi hhi hlohi hfuel hlow hhigh
    by_cases hle : lo ≤ hi
    · have hmid1 : lo ≤ (lo + hi) / 2 := by omega
      have hmid2 : (lo + hi) / 2 ≤ hi := by omega
      simp only [MonotonicLogArray.nearestAux, if_pos hle]
      by_cases heq : v = m.entry ((lo + hi) / 2)
      · exact absurd ⟨(lo + hi) / 2, by omega, heq.symm⟩ habs
      · simp only [if_neg heq]
        by_cases hlt : m.entry ((lo + hi) / 2) < v
        · simp only [if_pos hlt]
          apply ih ((lo + hi) / 2 + 1) hi hhi (by omega) (by omega)
          · intro i hi2
            have h := mono i ((lo + hi) / 2) (by omega) (by omega)
            omega
          · exact hhigh
        · simp only [if_neg hlt]
          by_cases hmid0 : (lo + hi) / 2 = 0
          · simp only [if_pos hmid0]
            have hv0 : v < m.entry 0 := by
              have h1 : ¬ v = m.entry 0 := hmid0 ▸ heq
              have h2 : ¬ m.entry 0 < v := hmid0 ▸ hlt
              omega
            refine ⟨by omega, fun i hi2 => absurd hi2 (by omega), fun i hi2 hi3 => ?_⟩
            have h := mono 0 i (by omega) hi3
            omega
          · simp only [if_neg hmid0]
            apply ih lo ((lo + hi) / 2 - 1) (by omega) (by omega) (by omega) hlow
            intro i hi2 hi3
            have h := mono ((lo + hi) / 2) i (by omega) hi3
            have hvmid : v < m.entry ((lo + hi) / 2) := by omega
            omega
    · have hr : m.nearestAux v (fuel + 1) lo hi = hi + 1 := by
        simp only [MonotonicLogArray.nearestAux, if_neg hle]
        omega
      rw [hr]
      exact ⟨by omega, fun i hi2 => hlow i (by omega), fun i hi2 hi3 => hhigh i (by omega) hi3⟩

/-- When `v` occurs between `lo` and `hi`, the binary-search loop returns an
index holding `v` (not necessarily the first one). -/
theorem nearestAux_present (m : MonotonicLogArray) (v : Nat)
    (mono : ∀ i j, i ≤ j → j < m.len → m.entry i ≤ m.entry j) :
    ∀ fuel lo hi, hi < m.len → hi + 1 - lo ≤ fuel →
      (∃ i, lo ≤ i ∧ i ≤ hi ∧ m.entry i = v) →
      m.entry (m.nearestAux v fuel lo hi) = v ∧ m.nearestAux v fuel lo hi ≤ hi := by
  intro fuel
  induction fuel with
  | zero =>
    rintro lo hi hhi hfuel ⟨i, h1, h2, h3⟩
    exact absurd hfuel (by omega)
  | succ fuel ih =>
    rintro lo hi hhi hfuel ⟨i, h1, h2, h3⟩
    have hle : lo ≤ hi := by omega
    have hmid1 : lo ≤ (lo + hi) / 2 := by omega
    have hmid2 : (lo + hi) / 2 ≤ hi := by omega
    simp only [MonotonicLogArray.nearestAux, if_pos hle]
    by_cases heq : v = m.entry ((lo + hi) / 2)
    · simp only [if_pos heq]
      exact ⟨heq.symm, by omega⟩
    · simp only [if_neg heq]
      by_cases hlt : m.entry ((lo + hi) / 2) < v
      · simp only [if_pos hlt]
        have hi_gt : (lo + hi) / 2 + 1 ≤ i := by
          by_contra hc
          have h := mono i ((lo + hi) / 2) (by omega) (by omega)
          omega
        obtain ⟨ha, hb⟩ := ih ((lo + hi) / 2 + 1) hi hhi (by omega) ⟨i, hi_gt, h2, h3⟩
        exact ⟨ha, hb⟩
      · by_cases hmid0 : (lo + hi) / 2 = 0
        · exfalso
          have hv : v < m.entry ((lo + hi) / 2) := by omega
          have h := mono ((lo + hi) / 2) i (by omega) (by omega)
          omega
        · simp only [if_neg hlt, if_neg hmid0]
          have hi_lt : i ≤ (lo + hi) / 2 - 1 := by
            by_contra hc
            have h := mono ((lo + hi) / 2) i (by omega) (by omega)
            omega
          obtain ⟨ha, hb⟩ := ih lo ((lo + hi) / 2 - 1) (by omega) (by omega) ⟨i, h1, hi_lt, h3⟩
          exact ⟨ha, by omega⟩

/-- C3 (amended): on a monotonic array, `nearest_index_of v` returns 0 on an
empty array; when `v` occurs it returns an in-range index holding `v` — but
not necessarily the smallest such index; when `v` does not occur it returns
the lower-bound position: the index of the first element `> v`, or the length
when every element is `< v`. -/
theorem claim_C3_amended (a : LogArray) (v : Nat)
    (mono : ∀ i j, i ≤ j → j < a.len → a.entry i ≤ a.entry j) :
    (a.len = 0 → (MonotonicLogArray.from_logarray a).nearest_index_of v = 0) ∧
    ((∃ i, i < a.len ∧ a.entry i = v) →
      (MonotonicLogArray.from_logarray a).nearest_index_of v < a.len ∧
      a.entry ((MonotonicLogArray.from_logarray a).nearest_index_of v) = v) ∧
    ((¬ ∃ i, i < a.len ∧ a.entry i = v) →
      (MonotonicLogArray.from_logarray a).nearest_index_of v ≤ a.len ∧
      (∀ i, i < (MonotonicLogArray.from_logarray a).nearest_index_of v → a.entry i < v) ∧
      (∀ i, (MonotonicLogArray.from_logarray a).nearest_index_of v ≤ i → i < a.len →
        v < a.entry i)) := by
  have hmlen : (MonotonicLogArray.from_logarray a).len = a.len := rfl
  refine ⟨?_, ?_, ?_⟩
  · intro h0
    have hz : (MonotonicLogArray.from_logarray a).is_empty = true := by
      simp [MonotonicLogArray.is_empty, MonotonicLogArray.from_logarray, h0]
    simp [MonotonicLogArray.nearest_index_of, hz]
  · rintro ⟨i, hi, hv⟩
    have h0 : a.len ≠ 0 := by omega
    have hz : (MonotonicLogArray.from_logarray a).is_empty = false := by
      simp [MonotonicLogArray.is_empty, MonotonicLogArray.from_logarray, h0]
    have hr : (MonotonicLogArray.from_logarray a).nearest_index_of v =
        (MonotonicLogArray.from_logarray a).nearestAux v a.len 0 (a.len - 1) := by
      rw [MonotonicLogArray.nearest_index_of, if_neg (by simp [hz]), hmlen]
    obtain ⟨ha, hb⟩ := nearestAux_present (MonotonicLogArray.from_logarray a) v mono
      a.len 0 (a.len - 1) (by rw [hmlen]; omega) (by omega) ⟨i, by omega, by omega, hv⟩
    rw [hr]
    exact ⟨by omega, ha⟩
  · intro habs
    by_cases h0 : a.len = 0
    · have hz : (MonotonicLogArray.from_logarray a).is_empty = true := by
        simp [MonotonicLogArray.is_empty, MonotonicLogArray.from_logarray, h0]
      have hzz : (MonotonicLogArray.from_logarray a).nearest_index_of v = 0 := by
        simp [MonotonicLogArray.nearest_index_of, hz]
      rw [hzz]
      exact ⟨by omega, fun i hi => absurd hi (by omega), fun i hi1 hi2 => absurd hi2 (by omega)⟩
    · have hz : (MonotonicLogArray.from_logarray a).is_empty = false := by
        simp [MonotonicLogArray.is_empty, MonotonicLogArray.from_logarray, h0]
      have hr : (MonotonicLogArray.from_logarray a).nearest_index_of v =
          (MonotonicLogArray.from_logarray a).nearestAux v a.len 0 (a.len - 1) := by
        rw [MonotonicLogArray.nearest_index_of, if_neg (by simp [hz]), hmlen]
      obtain ⟨ha, hb, hc⟩ := nearestAux_absent (MonotonicLogArray.from_logarray a) v mono habs
        a.len 0 (a.len - 1) (by rw [hmlen]; omega) (by omega) (by omega)
        (fun i hi => absurd hi (by omega))
        (fun i hi1 hi2 => absurd (by omega : a.len < a.len) (by omega))
      rw [hr]
      exact ⟨by rw [hmlen] at ha; exact ha, hb, by rw [hmlen] at hc; exact hc⟩


/-- C3 counterexample: on the monotonic array `[5, 5, 5]` (width 3), searching
for 5 returns index 1, whereas the first (smallest-index) element `≥ 5` is at
index 0. -/
theorem claim_C3_counterexample :
    LogArray.parse [182, 128, 0, 0, 0, 0, 0, 0, 0, 0, 0, 3, 3, 0, 0, 0] =
      .ok { first := 0, len := 3, width := 3,
            input_buf := [182, 128, 0, 0, 0, 0, 0, 0, 0, 0, 0, 3, 3, 0, 0, 0] } ∧
    LogArray.iter { first := 0, len := 3, width := 3,
                    input_buf := [182, 128, 0, 0, 0, 0, 0, 0, 0, 0, 0, 3, 3, 0, 0, 0] } =
      [5, 5, 5] ∧
    (MonotonicLogArray.from_logarray
      { first := 0, len := 3, width := 3,
        input_buf := [182, 128, 0, 0, 0, 0, 0, 0, 0, 0, 0, 3, 3, 0, 0, 0] }).nearest_index_of 5 =
      1 ∧
    (5 : Nat) ≤ LogArray.entry { first := 0, len := 3, width := 3,
                                 input_buf := [182, 128, 0, 0, 0, 0, 0, 0, 0, 0, 0, 3, 3, 0, 0, 0] }
      0 ∧
    (1 : Nat) ≠ 0 :=
  ⟨by decide, by decide, by decide, by decide, by decide⟩

/-- Witness for C3 (amended) on the parsed monotonic array `[1, 2]` searching
for the present value 2: the returned index is in range and holds 2. -/
theorem claim_C3_witness :
    (MonotonicLogArray.from_logarray
      { first := 0, len := 2, width := 2,
        input_buf := [96, 0, 0, 0, 0, 0, 0, 0, 0, 0, 0, 2, 2, 0, 0, 0] }).nearest_index_of 2 < 2 ∧
    LogArray.entry { first := 0, len := 2, width := 2,
                     input_buf := [96, 0, 0, 0, 0, 0, 0, 0, 0, 0, 0, 2, 2, 0, 0, 0] }
      ((MonotonicLogArray.from_logarray
        { first := 0, len := 2, width := 2,
          input_buf := [96, 0, 0, 0, 0, 0, 0, 0, 0, 0, 0, 2, 2, 0, 0, 0] }).nearest_index_of 2) =
      2 := by
  have h := claim_C3_amended
    { first := 0, len := 2, width := 2,
      input_buf := [96, 0, 0, 0, 0, 0, 0, 0, 0, 0, 0, 2, 2, 0, 0, 0] } 2
    (by
      intro i j hij hj
      have hj2 : j < 2 := hj
      interval_cases j <;> interval_cases i <;> decide)
  exact h.2.1 ⟨1, by decide, by decide⟩

/-- Fuelled bit-length characterization: with enough fuel, `bitLenAux fuel v`
is at most `w` exactly when `v < 2 ^ w`. -/
theorem bitLenAux_le_iff : ∀ fuel v w, v ≤ fuel → (bitLenAux fuel v ≤ w ↔ v < 2 ^ w) := by
  intro fuel
  induction fuel with
  | zero =>
    intro v w hv
    have hv0 : v = 0 := by omega
    subst hv0
    rw [bitLenAux]
    simp only [Nat.zero_le, true_iff]
    exact Nat.two_pow_pos w
  | succ fuel ih =>
    intro v w hv
    by_cases h0 : v = 0
    · subst h0
      rw [bitLenAux, if_pos rfl]
      simp only [Nat.zero_le, true_iff]
      exact Nat.two_pow_pos w
    · rw [bitLenAux, if_neg h0]
      cases w with
      | zero =>
        simp only [Nat.pow_zero]
        omega
      | succ w =>
        rw [Nat.succ_le_succ_iff, ih (v / 2) w (by omega), Nat.pow_succ]
        omega

/-- The bit length of `v` is at most `w` exactly when `v < 2 ^ w`. -/
theorem bitLen_le_iff (v w : Nat) : bitLen v ≤ w ↔ v < 2 ^ w :=
  bitLenAux_le_iff v v w (Nat.le_refl v)

/-- A value below `2 ^ w` passes the builders' fit check
(`leading_zeros ≥ 64 - width`). -/
theorem clz64_not_lt {w v : Nat} (hw : w ≤ 64) (hv : v < 2 ^ w) :
    ¬ clz64 v < 64 - w := by
  have hb : bitLen v ≤ w := (bitLen_le_iff v w).mpr hv
  unfold clz64
  omega

/-- The source's `& 0b11_1111` idiom is reduction modulo 64. -/
theorem and_63_eq_mod (x : Nat) : x &&& 63 = x % 64 := by
  have h := Nat.and_pow_two_sub_one_eq_mod x 6
  norm_num at h
  exact h

/-- Bitwise or preserves divisibility by a power of two. -/
theorem or_mod_two_pow {a b n : Nat} (ha : a % 2 ^ n = 0) (hb : b % 2 ^ n = 0) :
    (a ||| b) % 2 ^ n = 0 := by
  rw [← Nat.and_pow_two_sub_one_eq_mod] at ha hb ⊢
  apply Nat.eq_of_testBit_eq
  intro i
  have ha2 := congrArg (fun x => x.testBit i) ha
  have hb2 := congrArg (fun x => x.testBit i) hb
  simp only [Nat.testBit_and, Nat.testBit_or, Nat.zero_testBit] at ha2 hb2 ⊢
  cases h1 : Nat.testBit a i <;> cases h2 : Nat.testBit b i <;>
    cases h3 : Nat.testBit (2 ^ n - 1) i <;> simp_all

/-- Divisibility by `2 ^ m` gives divisibility by any lower power. -/
theorem mod_pow_zero_of_le {a m k : Nat} (h : a % 2 ^ m = 0) (hk : k ≤ m) :
    a % 2 ^ k = 0 := by
  have h1 : 2 ^ m ∣ a := Nat.dvd_iff_mod_eq_zero.mpr h
  exact Nat.dvd_iff_mod_eq_zero.mp (dvd_trans (Nat.pow_dvd_pow 2 hk) h1)

/-- A `w`-bit value shifted to the top of a 64-bit word does not overflow. -/
theorem mul_pow_split (v w : Nat) (hw : 1 ≤ w) (hw64 : w ≤ 64) (hv : v < 2 ^ w) :
    v * 2 ^ (64 - w) < 2 ^ 64 := by
  calc v * 2 ^ (64 - w) < 2 ^ w * 2 ^ (64 - w) :=
        (Nat.mul_lt_mul_right (Nat.two_pow_pos _)).mpr hv
    _ = 2 ^ 64 := by rw [← Nat.pow_add]; congr 1; omega

/-- Shape of `push` when the new offset stays below 64: no word is emitted. -/
theorem push_eq_no_emit (b : LogArrayBufBuilder) (v : Nat)
    (hfits : ¬ clz64 v < 64 - b.width) (h : ¬ 64 ≤ b.offset + b.width) :
    b.push v = some { buf := b.buf, width := b.width,
                      current := b.current ||| shr64 (shl64 v (64 - b.width)) b.offset,
                      offset := b.offset + b.width, count := b.count + 1 } := by
  rw [LogArrayBufBuilder.push]
  simp only [if_neg hfits, if_neg h]

/-- Shape of `push` when the word fills exactly: the word is emitted and the
staging word resets to 0. -/
theorem push_eq_emit_zero (b : LogArrayBufBuilder) (v : Nat)
    (hfits : ¬ clz64 v < 64 - b.width) (hemit : 64 ≤ b.offset + b.width)
    (hz : b.offset + b.width - 64 = 0) :
    b.push v = some { buf := b.buf ++ putU64BE (b.current ||| shr64 (shl64 v (64 - b.width)) b.offset),
                      width := b.width, current := 0, offset := b.offset + b.width - 64,
                      count := b.count + 1 } := by
  rw [LogArrayBufBuilder.push]
  simp only [if_neg hfits, if_pos hemit, if_pos hz]

/-- Shape of `push` when the element straddles: the word is emitted and the
value's low bits seed the new staging word. -/
theorem push_eq_emit (b : LogArrayBufBuilder) (v : Nat)
    (hfits : ¬ clz64 v < 64 - b.width) (hemit : 64 ≤ b.offset + b.width)
    (hz : ¬ b.offset + b.width - 64 = 0) :
    b.push v = some { buf := b.buf ++ putU64BE (b.current ||| shr64 (shl64 v (64 - b.width)) b.offset),
                      width := b.width, current := shl64 v (64 - (b.offset + b.width - 64)),
                      offset := b.offset + b.width - 64, count := b.count + 1 } := by
  rw [LogArrayBufBuilder.push]
  simp only [if_neg hfits, if_pos hemit, if_neg hz]

/-- One `push` of a fitting value succeeds and preserves the builder
invariant, incrementing `count`. -/
theorem push_inv {w : Nat} (hw : w ≤ 64) {b : LogArrayBufBuilder} {v : Nat} (hv : v < 2 ^ w)
    (hinv : BuilderInv w b) :
    ∃ b2, b.push v = some b2 ∧ BuilderInv w b2 ∧ b2.count = b.count + 1 := by
  obtain ⟨hbw, hoff, hlen, hcur, hcur64⟩ := hinv
  have hfits : ¬ clz64 v < 64 - b.width := by rw [hbw]; exact clz64_not_lt hw hv
  have hofflt : b.offset < 64 := by omega
  have hsucc : (b.count + 1) * w = b.count * w + w := by ring
  by_cases hw0 : w = 0
  · subst hw0
    have hv0 : v = 0 := by
      simp only [Nat.pow_zero] at hv
      omega
    subst hv0
    have hnoemit : ¬ 64 ≤ b.offset + b.width := by omega
    rw [push_eq_no_emit b 0 hfits hnoemit]
    have hy : shr64 (shl64 0 (64 - b.width)) b.offset = 0 := by
      simp [shl64, shr64]
    refine ⟨_, rfl, ⟨hbw, ?_, ?_, ?_, ?_⟩, rfl⟩
    · show b.offset + b.width = (b.count + 1) * 0 % 64
      omega
    · show b.buf.length = 8 * ((b.count + 1) * 0 / 64)
      omega
    · show (b.current ||| shr64 (shl64 0 (64 - b.width)) b.offset) %
        2 ^ (64 - (b.offset + b.width)) = 0
      rw [hy, Nat.or_zero, hbw, Nat.add_zero]
      exact hcur
    · show (b.current ||| shr64 (shl64 0 (64 - b.width)) b.offset) < 2 ^ 64
      rw [hy, Nat.or_zero]
      exact hcur64
  · have hw1 : 1 ≤ w := by omega
    have hv64 : v < 2 ^ 64 := lt_of_lt_of_le hv (Nat.pow_le_pow_right (by omega) hw)
    have hshl : shl64 v (64 - b.width) = v * 2 ^ (64 - w) := by
      rw [hbw, shl64, Nat.mod_eq_of_lt (by omega : 64 - w < 64), Nat.shiftLeft_eq]
      exact Nat.mod_eq_of_lt (mul_pow_split v w hw1 hw hv)
    have hshr : shr64 (v * 2 ^ (64 - w)) b.offset = v * 2 ^ (64 - w) / 2 ^ b.offset := by
      rw [shr64, Nat.mod_eq_of_lt hofflt, Nat.shiftRight_eq_div_pow]
    have hylt : v * 2 ^ (64 - w) / 2 ^ b.offset < 2 ^ 64 :=
      lt_of_le_of_lt (Nat.div_le_self _ _) (mul_pow_split v w hw1 hw hv)
    have hboff : b.offset + b.width = b.offset + w := by rw [hbw]
    by_cases hemit : 64 ≤ b.offset + b.width
    · have hlen2 : (b.buf ++ putU64BE (b.current ||| shr64 (shl64 v (64 - b.width)) b.offset)).length =
          8 * ((b.count + 1) * w / 64) := by
        simp only [List.length_append, putU64BE, List.length_cons, List.length_nil, hlen, hsucc]
        omega
      by_cases hz : b.offset + b.width - 64 = 0
      · rw [push_eq_emit_zero b v hfits hemit hz]
        refine ⟨_, rfl, ⟨hbw, ?_, ?_, ?_, ?_⟩, rfl⟩
        · show b.offset + b.width - 64 = (b.count + 1) * w % 64
          rw [hboff] at hz ⊢
          rw [hsucc]
          omega
        · show (b.buf ++ putU64BE (b.current ||| shr64 (shl64 v (64 - b.width)) b.offset)).length =
            8 * ((b.count + 1) * w / 64)
          exact hlen2
        · show (0 : Nat) % 2 ^ (64 - (b.offset + b.width - 64)) = 0
          simp
        · show (0 : Nat) < 2 ^ 64
          exact Nat.two_pow_pos 64
      · rw [push_eq_emit b v hfits hemit hz]
        refine ⟨_, rfl, ⟨hbw, ?_, ?_, ?_, ?_⟩, rfl⟩
        · show b.offset + b.width - 64 = (b.count + 1) * w % 64
          rw [hboff] at hz ⊢
          rw [hsucc]
          omega
        · show (b.buf ++ putU64BE (b.current ||| shr64 (shl64 v (64 - b.width)) b.offset)).length =
            8 * ((b.count + 1) * w / 64)
          exact hlen2
        · show shl64 v (64 - (b.offset + b.width - 64)) %
            2 ^ (64 - (b.offset + b.width - 64)) = 0
          rw [shl64, Nat.mod_eq_of_lt (by omega : 64 - (b.offset + b.width - 64) < 64),
            Nat.shiftLeft_eq]
          have hd2 : (2 ^ (64 - (b.offset + b.width - 64)) : Nat) ∣ u64Mod := by
            unfold u64Mod
            exact Nat.pow_dvd_pow 2 (by omega)
          exact Nat.dvd_iff_mod_eq_zero.mp
            ((Nat.dvd_mod_iff hd2).mpr (dvd_mul_left _ v))
        · show shl64 v (64 - (b.offset + b.width - 64)) < 2 ^ 64
          rw [shl64]
          have hpos : 0 < u64Mod := by unfold u64Mod; exact Nat.two_pow_pos 64
          exact Nat.mod_lt _ hpos
    · rw [push_eq_no_emit b v hfits hemit]
      have hle : b.offset + w ≤ 64 := by omega
      have hexact : v * 2 ^ (64 - w) / 2 ^ b.offset = v * 2 ^ (64 - w - b.offset) := by
        rw [Nat.mul_div_assoc v (Nat.pow_dvd_pow 2 (by omega : b.offset ≤ 64 - w)),
          Nat.pow_div (by omega) (by omega)]
      refine ⟨_, rfl, ⟨hbw, ?_, ?_, ?_, ?_⟩, rfl⟩
      · show b.offset + b.width = (b.count + 1) * w % 64
        rw [hboff, hsucc]
        omega
      · show b.buf.length = 8 * ((b.count + 1) * w / 64)
        rw [hlen, hsucc]
        congr 1
        omega
      · show (b.current ||| shr64 (shl64 v (64 - b.width)) b.offset) %
          2 ^ (64 - (b.offset + b.width)) = 0
        rw [hshl, hshr, hexact, hboff]
        apply or_mod_two_pow
        · exact mod_pow_zero_of_le hcur (by omega)
        · exact mod_pow_zero_of_le (Nat.mul_mod_left v (2 ^ (64 - w - b.offset))) (by omega)
      · show (b.current ||| shr64 (shl64 v (64 - b.width)) b.offset) < 2 ^ 64
        rw [hshl, hshr]
        exact Nat.or_lt_two_pow hcur64 hylt


/-- `push_vec` of fitting values succeeds and preserves the builder
invariant, adding the list length to `count`. -/
theorem push_vec_inv {w : Nat} (hw : w ≤ 64) (vs : List Nat) (hvs : ∀ v ∈ vs, v < 2 ^ w)
    {b : LogArrayBufBuilder} (hinv : BuilderInv w b) :
    ∃ b2, b.push_vec vs = some b2 ∧ BuilderInv w b2 ∧ b2.count = b.count + vs.length := by
  induction vs generalizing b with
  | nil => exact ⟨b, rfl, hinv, by simp⟩
  | cons v rest ih =>
    obtain ⟨b1, hb1, hinv1, hc1⟩ := push_inv hw (hvs v (by simp)) hinv
    obtain ⟨b2, hb2, hinv2, hc2⟩ := ih (fun x hx => hvs x (by simp [hx])) hinv1
    refine ⟨b2, ?_, hinv2, by rw [hc2, hc1]; simp; omega⟩
    rw [LogArrayBufBuilder.push_vec, hb1]
    simpa using hb2

/-- C8: after pushing `n` fitting values into a fresh eager builder of width
`w ≤ 64`: `count = n`, `offset = n·w mod 64`, exactly `⌊n·w/64⌋` data words
(8 bytes each) have been emitted, and the staging word's bits beyond `offset`
(its low `64 - offset` bits) are zero — hence the word `finalize_data` emits
when `n·w mod 64 ≠ 0` has its unused trailing bits zero (and nothing is
emitted when `n·w mod 64 = 0`). -/
theorem claim_C8 (w : Nat) (vs : List Nat) (hw : w ≤ 64) (hvs : ∀ v ∈ vs, v < 2 ^ w) :
    ∃ b, (LogArrayBufBuilder.new [] w).push_vec vs = some b ∧
      b.count = vs.length ∧ b.offset = vs.length * w % 64 ∧
      b.buf.length = 8 * (vs.length * w / 64) ∧
      b.current % 2 ^ (64 - b.offset) = 0 ∧
      (vs.length * w % 64 ≠ 0 → b.finalize_data.buf = b.buf ++ putU64BE b.current) ∧
      (vs.length * w % 64 = 0 → b.finalize_data.buf = b.buf) := by
  have hinv0 : BuilderInv w (LogArrayBufBuilder.new [] w) := by
    refine ⟨rfl, by simp [LogArrayBufBuilder.new], by simp [LogArrayBufBuilder.new], ?_, ?_⟩
    · simp [LogArrayBufBuilder.new]
    · simp only [LogArrayBufBuilder.new]
      exact Nat.two_pow_pos 64
  obtain ⟨b, hb, ⟨hbw, hoff, hlen, hcur, hcur64⟩, hc⟩ := push_vec_inv hw vs hvs hinv0
  have hcount : b.count = vs.length := by simpa [LogArrayBufBuilder.new] using hc
  refine ⟨b, hb, hcount, by rw [hoff, hcount], by rw [hlen, hcount], hcur, ?_, ?_⟩
  · intro hnz
    have hcond : b.count * b.width &&& 63 ≠ 0 := by
      rw [and_63_eq_mod, hcount, hbw]
      exact hnz
    rw [LogArrayBufBuilder.finalize_data, if_pos hcond]
  · intro hz
    have hcond : ¬ b.count * b.width &&& 63 ≠ 0 := by
      rw [and_63_eq_mod, hcount, hbw]
      simp [hz]
    rw [LogArrayBufBuilder.finalize_data, if_neg hcond]

/-- Witness for C8 at width 5 with the spec's seven boundary-scenario values:
35 bits pending, no word emitted, staging word divisible by `2 ^ 29`. -/
theorem claim_C8_witness :
    ((LogArrayBufBuilder.new [] 5).push_vec [1, 3, 2, 5, 12, 31, 18]).isSome = true ∧
    (((LogArrayBufBuilder.new [] 5).push_vec [1, 3, 2, 5, 12, 31, 18]).getD
        (LogArrayBufBuilder.new [] 5)).count = 7 ∧
    (((LogArrayBufBuilder.new [] 5).push_vec [1, 3, 2, 5, 12, 31, 18]).getD
        (LogArrayBufBuilder.new [] 5)).offset = 35 ∧
    (((LogArrayBufBuilder.new [] 5).push_vec [1, 3, 2, 5, 12, 31, 18]).getD
        (LogArrayBufBuilder.new [] 5)).buf.length = 0 ∧
    (((LogArrayBufBuilder.new [] 5).push_vec [1, 3, 2, 5, 12, 31, 18]).getD
        (LogArrayBufBuilder.new [] 5)).current % 2 ^ 29 = 0 := by
  obtain ⟨b, hb, h1, h2, h3, h4, h5, h6⟩ := claim_C8 5 [1, 3, 2, 5, 12, 31, 18] (by decide)
    (by decide)
  rw [hb]
  simp only [Option.getD_some, Option.isSome_some]
  refine ⟨trivial, h1, ?_, ?_, ?_⟩
  · rw [h2]
    decide
  · rw [h3]
    decide
  · have h4b := h4
    rw [h2] at h4b
    exact h4b

/-- The source's word-alignment idiom `>> 6 << 3`. -/
theorem byte_index_eq (x : Nat) : x >>> 6 <<< 3 = 8 * (x / 64) := by
  rw [Nat.shiftRight_eq_div_pow, Nat.shiftLeft_eq]
  norm_num
  omega

/-- A view whose buffer covers its data words (positive width) only performs
in-bounds reads in `entry`. -/
theorem entryInBounds_of_bound {a : LogArray} (hw1 : 1 ≤ a.width) (hw64 : a.width ≤ 64)
    (hacc : accessWithinData a) {i : Nat} (hi : i < a.len) : entryInBounds a i := by
  have hmul : a.width * (a.first + i) + a.width ≤ a.width * (a.first + a.len) := by
    have h1 : a.first + i + 1 ≤ a.first + a.len := by omega
    calc a.width * (a.first + i) + a.width = a.width * (a.first + i + 1) := by ring
      _ ≤ a.width * (a.first + a.len) := Nat.mul_le_mul_left _ h1
  unfold accessWithinData at hacc
  unfold entryInBounds
  rw [byte_index_eq, and_63_eq_mod]
  constructor
  · omega
  · intro hstrad
    omega

/-- Iterated slices keep the width and buffer and shrink the covered range. -/
theorem sliceOf_shape {a s : LogArray} (h : SliceOf s a) :
    s.width = a.width ∧ s.input_buf = a.input_buf ∧ s.first + s.len ≤ a.first + a.len := by
  induction h with
  | refl a => exact ⟨rfl, rfl, Nat.le_refl _⟩
  | step o n hprev h2 ih =>
    obtain ⟨hw, hbuf, hle⟩ := ih
    rename_i s s2
    rw [LogArray.slice] at h2
    by_cases hc : s.len < o + n
    · rw [if_pos hc] at h2
      exact absurd h2 (by simp)
    · rw [if_neg hc] at h2
      have hs2 := (Option.some.inj h2).symm
      rw [hs2]
      exact ⟨hw, hbuf, by simp only; omega⟩

/-- The header-first data-byte count equals `8 · ⌈width · len / 64⌉`. -/
theorem logarray_length_eq (len width : Nat) :
    logarray_length_from_len_width len width = 8 * ((width * len + 63) / 64) := by
  show (width * len / 64 + if width * len % 64 = 0 then 0 else 1) * 8 =
    8 * ((width * len + 63) / 64)
  by_cases h : width * len % 64 = 0
  · rw [if_pos h]
    omega
  · rw [if_neg h]
    omega

/-- A successfully trailer-parsed array has `first = 0`, a width of at most
64, and a buffer covering its data words. -/
theorem parse_shape {buf : List Nat} {a : LogArray} (h : LogArray.parse buf = .ok a) :
    a.first = 0 ∧ a.width ≤ 64 ∧ accessWithinData a := by
  by_cases h8 : buf.length < 8
  · rw [parse_too_small h8] at h
    simp at h
  by_cases hw : 64 < (parse_control_word (buf.drop (buf.length - 8))).2
  · rw [parse_width_too_large h8 hw] at h
    simp at h
  by_cases hs : buf.length = ((parse_control_word (buf.drop (buf.length - 8))).1 *
      (parse_control_word (buf.drop (buf.length - 8))).2 + 127) >>> 6 <<< 3
  · rw [parse_ok h8 hw hs] at h
    have ha := (Except.ok.inj h).symm
    rw [ha]
    rw [byte_index_eq] at hs
    refine ⟨rfl, ?_, ?_⟩
    · show (parse_control_word (buf.drop (buf.length - 8))).2 ≤ 64
      omega
    · show 8 * (((parse_control_word (buf.drop (buf.length - 8))).2 *
        (0 + (parse_control_word (buf.drop (buf.length - 8))).1) + 63) / 64) ≤ buf.length
      have hcomm : (parse_control_word (buf.drop (buf.length - 8))).2 *
          (0 + (parse_control_word (buf.drop (buf.length - 8))).1) =
          (parse_control_word (buf.drop (buf.length - 8))).1 *
          (parse_control_word (buf.drop (buf.length - 8))).2 := by ring
      rw [hcomm]
      omega
  · rw [parse_size_mismatch h8 hw hs] at h
    simp at h

/-- Header-first parsing of a buffer of fewer than 8 bytes reports it too
small. -/
theorem phf_too_small {buf : List Nat} (h : buf.length < 8) :
    LogArray.parse_header_first buf = .error (.InputBufferTooSmall buf.length) := by
  simp [LogArray.parse_header_first, LogArrayError.validate_input_buf_size, h]

/-- Header-first parsing reports a header width above 64. -/
theorem phf_width_too_large {buf : List Nat} (h8 : ¬ buf.length < 8)
    (hw : 64 < (parse_control_word (buf.take 8)).2) :
    LogArray.parse_header_first buf =
      .error (.WidthTooLarge (parse_control_word (buf.take 8)).2) := by
  simp [LogArray.parse_header_first, LogArrayError.validate_input_buf_size, h8,
    read_control_word_trailing, LogArrayError.validate_len_and_width_trailing, hw]

/-- Header-first parsing reports a buffer smaller than header plus data. -/
theorem phf_size_mismatch {buf : List Nat} (h8 : ¬ buf.length < 8)
    (hw : ¬ 64 < (parse_control_word (buf.take 8)).2)
    (hs : buf.length < ((parse_control_word (buf.take 8)).1 *
      (parse_control_word (buf.take 8)).2 + 127) >>> 6 <<< 3) :
    LogArray.parse_header_first buf =
      .error (.UnexpectedInputBufferSize buf.length
        (((parse_control_word (buf.take 8)).1 *
          (parse_control_word (buf.take 8)).2 + 127) >>> 6 <<< 3)
        (parse_control_word (buf.take 8)).1
        (parse_control_word (buf.take 8)).2) := by
  have hv : LogArrayError.validate_len_and_width_trailing buf.length
      (parse_control_word (buf.take 8)).1 (parse_control_word (buf.take 8)).2 =
      .error (.UnexpectedInputBufferSize buf.length
        (((parse_control_word (buf.take 8)).1 *
          (parse_control_word (buf.take 8)).2 + 127) >>> 6 <<< 3)
        (parse_control_word (buf.take 8)).1
        (parse_control_word (buf.take 8)).2) := by
    rw [LogArrayError.validate_len_and_width_trailing, if_neg hw]
    exact if_pos hs
  simp only [LogArray.parse_header_first, read_control_word_trailing,
    LogArrayError.validate_input_buf_size, if_neg h8, hv]

/-- Header-first parsing succeeds on a large-enough buffer, wrapping exactly
the data bytes and returning the remainder. -/
theorem phf_ok {buf : List Nat} (h8 : ¬ buf.length < 8)
    (hw : ¬ 64 < (parse_control_word (buf.take 8)).2)
    (hs : ¬ buf.length < ((parse_control_word (buf.take 8)).1 *
      (parse_control_word (buf.take 8)).2 + 127) >>> 6 <<< 3) :
    LogArray.parse_header_first buf =
      .ok ({ first := 0, len := (parse_control_word (buf.take 8)).1,
             width := (parse_control_word (buf.take 8)).2,
             input_buf := (buf.drop 8).take (logarray_length_from_len_width
               (parse_control_word (buf.take 8)).1 (parse_control_word (buf.take 8)).2) },
           (buf.drop 8).drop (logarray_length_from_len_width
             (parse_control_word (buf.take 8)).1 (parse_control_word (buf.take 8)).2)) := by
  have hv : LogArrayError.validate_len_and_width_trailing buf.length
      (parse_control_word (buf.take 8)).1 (parse_control_word (buf.take 8)).2 = .ok () := by
    rw [LogArrayError.validate_len_and_width_trailing, if_neg hw]
    exact if_neg (by simpa using hs)
  simp only [LogArray.parse_header_first, read_control_word_trailing,
    LogArrayError.validate_input_buf_size, if_neg h8, hv]

/-- A successfully header-first-parsed array has `first = 0`, a width of at
most 64, and a buffer covering its data words. -/
theorem parse_header_first_shape {buf : List Nat} {a : LogArray} {rest : List Nat}
    (h : LogArray.parse_header_first buf = .ok (a, rest)) :
    a.first = 0 ∧ a.width ≤ 64 ∧ accessWithinData a := by
  by_cases h8 : buf.length < 8
  · rw [phf_too_small h8] at h
    simp at h
  by_cases hw : 64 < (parse_control_word (buf.take 8)).2
  · rw [phf_width_too_large h8 hw] at h
    simp at h
  by_cases hs : buf.length < ((parse_control_word (buf.take 8)).1 *
      (parse_control_word (buf.take 8)).2 + 127) >>> 6 <<< 3
  · rw [phf_size_mismatch h8 hw hs] at h
    simp at h
  · rw [phf_ok h8 hw hs] at h
    have hpair := Except.ok.inj h
    have ha := (congrArg Prod.fst hpair).symm
    simp only at ha
    rw [ha]
    rw [byte_index_eq] at hs
    refine ⟨rfl, ?_, ?_⟩
    · show (parse_control_word (buf.take 8)).2 ≤ 64
      omega
    · show 8 * (((parse_control_word (buf.take 8)).2 *
        (0 + (parse_control_word (buf.take 8)).1) + 63) / 64) ≤
        ((buf.drop 8).take (logarray_length_from_len_width
          (parse_control_word (buf.take 8)).1 (parse_control_word (buf.take 8)).2)).length
      rw [List.length_take, List.length_drop, logarray_length_eq]
      have hcomm : (parse_control_word (buf.take 8)).2 *
          (0 + (parse_control_word (buf.take 8)).1) =
          (parse_control_word (buf.take 8)).1 * (parse_control_word (buf.take 8)).2 := by ring
      have hcomm2 : (parse_control_word (buf.take 8)).2 * (parse_control_word (buf.take 8)).1 =
          (parse_control_word (buf.take 8)).1 * (parse_control_word (buf.take 8)).2 := by ring
      rw [hcomm, hcomm2]
      omega

/-- C10: for an array returned by `parse` or `parse_header_first` with
`width ≥ 1`, and any chain of slices of it, `entry` at any in-range index
reads only bytes inside the backing buffer: the first-word read and, when the
element straddles, the second-word read are in bounds. -/
theorem claim_C10 (buf : List Nat) (a : LogArray)
    (hp : LogArray.parse buf = .ok a ∨
      ∃ rest, LogArray.parse_header_first buf = .ok (a, rest))
    (hw1 : 1 ≤ a.width) (s : LogArray) (hs : SliceOf s a) (i : Nat) (hi : i < s.len) :
    entryInBounds s i := by
  have hbase : a.width ≤ 64 ∧ accessWithinData a := by
    rcases hp with h | ⟨rest, h⟩
    · have hsh := parse_shape h
      exact ⟨hsh.2.1, hsh.2.2⟩
    · have hsh := parse_header_first_shape h
      exact ⟨hsh.2.1, hsh.2.2⟩
  obtain ⟨hsw, hsbuf, hsle⟩ := sliceOf_shape hs
  apply entryInBounds_of_bound
  · rw [hsw]
    exact hw1
  · rw [hsw]
    exact hbase.1
  · unfold accessWithinData at hbase ⊢
    rw [hsw, hsbuf]
    have hm : a.width * (s.first + s.len) ≤ a.width * (a.first + a.len) :=
      Nat.mul_le_mul_left _ hsle
    have hb2 := hbase.2
    omega
  · exact hi

/-- Witness for C10: a parsed 16-byte width-17 array, sliced to `[1, 3)`,
read at index 1 (a straddling element), stays in bounds. -/
theorem claim_C10_witness :
    entryInBounds { first := 1, len := 2, width := 17,
                    input_buf := [0, 0, 128, 0, 128, 0, 96, 0, 0, 0, 0, 3, 17, 0, 0, 0] } 1 := by
  have hparse : LogArray.parse [0, 0, 128, 0, 128, 0, 96, 0, 0, 0, 0, 3, 17, 0, 0, 0] =
      .ok { first := 0, len := 3, width := 17,
            input_buf := [0, 0, 128, 0, 128, 0, 96, 0, 0, 0, 0, 3, 17, 0, 0, 0] } := by decide
  have hslice : LogArray.slice
      { first := 0, len := 3, width := 17,
        input_buf := [0, 0, 128, 0, 128, 0, 96, 0, 0, 0, 0, 3, 17, 0, 0, 0] } 1 2 =
      some { first := 1, len := 2, width := 17,
             input_buf := [0, 0, 128, 0, 128, 0, 96, 0, 0, 0, 0, 3, 17, 0, 0, 0] } := by decide
  exact claim_C10 [0, 0, 128, 0, 128, 0, 96, 0, 0, 0, 0, 3, 17, 0, 0, 0]
    { first := 0, len := 3, width := 17,
      input_buf := [0, 0, 128, 0, 128, 0, 96, 0, 0, 0, 0, 3, 17, 0, 0, 0] }
    (Or.inl hparse) (by decide) _
    (SliceOf.step 1 2 (SliceOf.refl _) hslice) 1 (by decide)

/-- Reading a byte list at any position yields a byte. -/
theorem getD_lt_256 {l : List Nat} (h : ∀ b ∈ l, b < 256) (j : Nat) : l.getD j 0 < 256 := by
  rw [List.getD_eq_getElem?_getD]
  cases hj : l[j]? with
  | none => simp
  | some b =>
    simp only [Option.getD_some]
    exact h b (List.getElem?_mem hj)

/-- A big-endian word read from a byte list fits in 64 bits. -/
theorem readU64BE_lt {l : List Nat} (h : ∀ b ∈ l, b < 256) (i : Nat) :
    readU64BE l i < 2 ^ 64 := by
  unfold readU64BE
  have h0 := getD_lt_256 h i
  have h1 := getD_lt_256 h (i + 1)
  have h2 := getD_lt_256 h (i + 2)
  have h3 := getD_lt_256 h (i + 3)
  have h4 := getD_lt_256 h (i + 4)
  have h5 := getD_lt_256 h (i + 5)
  have h6 := getD_lt_256 h (i + 6)
  have h7 := getD_lt_256 h (i + 7)
  norm_num at h0 h1 h2 h3 h4 h5 h6 h7 ⊢
  omega

/-- A word read that stays inside the first list ignores what is appended
after it. -/
theorem readU64BE_append {l1 l2 : List Nat} {i : Nat} (h : i + 8 ≤ l1.length) :
    readU64BE (l1 ++ l2) i = readU64BE l1 i := by
  unfold readU64BE
  have hg : ∀ k, k < 8 → (l1 ++ l2).getD (i + k) 0 = l1.getD (i + k) 0 := by
    intro k hk
    have hik : i + k < l1.length := by omega
    rw [List.getD_eq_getElem?_getD, List.getD_eq_getElem?_getD,
      List.getElem?_append_left hik]
  have hg0 : (l1 ++ l2).getD i 0 = l1.getD i 0 := by
    have hik : i < l1.length := by omega
    rw [List.getD_eq_getElem?_getD, List.getD_eq_getElem?_getD,
      List.getElem?_append_left hik]
  rw [hg0, hg 1 (by omega), hg 2 (by omega), hg 3 (by omega), hg 4 (by omega),
    hg 5 (by omega), hg 6 (by omega), hg 7 (by omega)]

/-- A word read on a dropped list is a shifted read on the original. -/
theorem readU64BE_drop (l : List Nat) (k i : Nat) :
    readU64BE (l.drop k) i = readU64BE l (k + i) := by
  unfold readU64BE
  have hg : ∀ j, (l.drop k).getD j 0 = l.getD (k + j) 0 := by
    intro j
    rw [List.getD_eq_getElem?_getD, List.getD_eq_getElem?_getD, List.getElem?_drop]
  rw [hg, hg, hg, hg, hg, hg, hg, hg]
  simp only [← Nat.add_assoc]

/-- Shifting a 64-bit value left by 0 is the identity. -/
theorem shl64_zero {x : Nat} (h : x < 2 ^ 64) : shl64 x 0 = x := by
  unfold shl64 u64Mod
  simp only [Nat.zero_mod, Nat.shiftLeft_zero]
  exact Nat.mod_eq_of_lt h

/-- Shape of `decode` when no elements remain: report `None` and clear the
queue. -/
theorem decode_eq_done (d : LogArrayDecoder) (bytes : List Nat) (h : d.remaining = 0) :
    d.decode bytes = (none, d, []) := by
  rw [LogArrayDecoder.decode, if_pos h]

/-- Shape of `decode` when the element lies inside the current word. -/
theorem decode_mk_fast (c w o r : Nat) (bytes : List Nat) (h0 : ¬ r = 0) (h : o + w ≤ 64) :
    (LogArrayDecoder.mk c w o r).decode bytes =
      (some (shr64 (shl64 c o) (64 - w)), LogArrayDecoder.mk c w (o + w) (r - 1), bytes) := by
  rw [LogArrayDecoder.decode]
  simp only [if_neg h0, if_pos h]

/-- Shape of `decode` when a fresh word holds the element entirely
(`offset = 64`). -/
theorem decode_mk_newword (c w o r : Nat) (bytes : List Nat) (h0 : ¬ r = 0)
    (h : ¬ o + w ≤ 64) (hb : ¬ bytes.length < 8) (h64 : o = 64) :
    (LogArrayDecoder.mk c w o r).decode bytes =
      (some (shr64 (readU64BE bytes 0) (64 - w)),
       LogArrayDecoder.mk (readU64BE bytes 0) w w (r - 1), bytes.drop 8) := by
  rw [LogArrayDecoder.decode]
  simp only [if_neg h0, if_neg h, if_neg hb, if_pos h64]

/-- Shape of `decode` when the element straddles into the next word. -/
theorem decode_mk_straddle (c w o r : Nat) (bytes : List Nat) (h0 : ¬ r = 0)
    (h : ¬ o + w ≤ 64) (hb : ¬ bytes.length < 8) (h64 : ¬ o = 64) :
    (LogArrayDecoder.mk c w o r).decode bytes =
      (some (shl64 (shr64 (shl64 c o) o) (w - (64 - o)) |||
        shr64 (readU64BE bytes 0) (64 - (w - (64 - o)))),
       LogArrayDecoder.mk (readU64BE bytes 0) w (w - (64 - o)) (r - 1), bytes.drop 8) := by
  rw [LogArrayDecoder.decode]
  simp only [if_neg h0, if_neg h, if_neg hb, if_neg h64]

/-- Shape of `entry` on a `first = 0` view when the element lies in one
word. -/
theorem entry_mk_fast (len w : Nat) (T : List Nat) (i : Nat)
    (h : w * i % 64 + w ≤ 64) :
    LogArray.entry ⟨0, len, w, T⟩ i =
      shr64 (shl64 (readU64BE T (8 * (w * i / 64))) (w * i % 64)) (64 - w) := by
  rw [LogArray.entry]
  simp only [Nat.zero_add, byte_index_eq, and_63_eq_mod]
  rw [if_pos h]

/-- Shape of `entry` on a `first = 0` view when the element straddles a word
boundary. -/
theorem entry_mk_straddle (len w : Nat) (T : List Nat) (i : Nat)
    (h : ¬ w * i % 64 + w ≤ 64) :
    LogArray.entry ⟨0, len, w, T⟩ i =
      shl64 (shr64 (shl64 (readU64BE T (8 * (w * i / 64))) (w * i % 64)) (w * i % 64))
        (w - (64 - w * i % 64)) |||
      shr64 (readU64BE T (8 * (w * i / 64) + 8)) (64 - (w - (64 - w * i % 64))) := by
  rw [LogArray.entry]
  simp only [Nat.zero_add, byte_index_eq, and_63_eq_mod]
  rw [if_neg h]


/-- One decoder pull from the state after `i` elements returns exactly
`entry i` of the corresponding trailer-form view and moves to the state after
`i + 1` elements, consuming a word from the queue exactly when needed. -/
theorem decode_step (w len : Nat) (hw1 : 1 ≤ w) (hw : w ≤ 64) (data extra trailer : List Nat)
    (hbytes : ∀ b ∈ data, b < 256) (hdlen : data.length = 8 * ((w * len + 63) / 64))
    (i : Nat) (hi : i < len) :
    (decoderAt w len i data).decode ((data ++ extra).drop (consumedBytes w i)) =
      (some (LogArray.entry ⟨0, len, w, data ++ trailer⟩ i),
       decoderAt w len (i + 1) data,
       (data ++ extra).drop (consumedBytes w (i + 1))) := by
  have hlen1 : 1 ≤ len := by omega
  have hw1len : 1 * 1 ≤ w * len := Nat.mul_le_mul hw1 hlen1
  have hsucc : w * (i + 1) = w * i + w := by ring
  have hBle : w * (i + 1) ≤ w * len := Nat.mul_le_mul_left w (by omega)
  have hF1 : 8 * (w * i / 64) + 8 ≤ data.length := by rw [hdlen]; omega
  have hdj : ∀ j, ¬ j = 0 → decoderAt w len j data =
      LogArrayDecoder.mk (readU64BE data (8 * ((w * j - 1) / 64))) w ((w * j - 1) % 64 + 1)
        (len - j) := by
    intro j hj
    rw [decoderAt, if_neg hj]
  have hcbj : ∀ j, ¬ j = 0 → consumedBytes w j = 8 * ((w * j - 1) / 64 + 1) := by
    intro j hj
    rw [consumedBytes, if_neg hj]
  by_cases hi0 : i = 0
  · subst hi0
    have hd0 : decoderAt w len 0 data = LogArrayDecoder.mk 0 w 64 len := by
      rw [decoderAt, if_pos rfl]
      rfl
    have hcb0 : consumedBytes w 0 = 0 := by rw [consumedBytes, if_pos rfl]
    rw [hd0, hcb0, List.drop_zero]
    have hqlen : ¬ (data ++ extra).length < 8 := by
      rw [List.length_append, hdlen]
      omega
    rw [decode_mk_newword 0 w 64 len (data ++ extra) (by omega) (by omega) hqlen rfl]
    have hE0 : readU64BE (data ++ extra) 0 = readU64BE data 0 := readU64BE_append (by omega)
    have hT0 : readU64BE (data ++ trailer) 0 = readU64BE data 0 := readU64BE_append (by omega)
    have hentry : LogArray.entry ⟨0, len, w, data ++ trailer⟩ 0 =
        shr64 (readU64BE data 0) (64 - w) := by
      rw [entry_mk_fast len w (data ++ trailer) 0 (by simp; omega)]
      simp only [Nat.mul_zero, Nat.zero_div, Nat.zero_mod]
      rw [hT0, shl64_zero (readU64BE_lt hbytes 0)]
    rw [hentry, Prod.mk.injEq, Prod.mk.injEq]
    refine ⟨by rw [hE0], ?_, ?_⟩
    · rw [hdj 1 (by omega)]
      have e1 : 8 * ((w * 1 - 1) / 64) = 0 := by omega
      have e2 : (w * 1 - 1) % 64 + 1 = w := by omega
      rw [e1, e2, hE0]
    · rw [hcbj 1 (by omega)]
      have e3 : 8 * ((w * 1 - 1) / 64 + 1) = 8 := by omega
      rw [e3]
  · have hig : ¬ i = 0 := hi0
    have hB1 : 1 * 1 ≤ w * i := Nat.mul_le_mul hw1 (by omega)
    rw [hdj i hig, hcbj i hig]
    by_cases hr : w * i % 64 = 0
    · have e64 : (w * i - 1) % 64 + 1 = 64 := by omega
      have hqb : 8 * ((w * i - 1) / 64 + 1) + 8 ≤ data.length := by
        rw [hdlen]
        omega
      have hqlen : ¬ ((data ++ extra).drop (8 * ((w * i - 1) / 64 + 1))).length < 8 := by
        rw [List.length_drop, List.length_append]
        omega
      rw [e64]
      rw [decode_mk_newword (readU64BE data (8 * ((w * i - 1) / 64))) w 64 (len - i)
        ((data ++ extra).drop (8 * ((w * i - 1) / 64 + 1))) (by omega) (by omega) hqlen rfl]
      have hsw : readU64BE ((data ++ extra).drop (8 * ((w * i - 1) / 64 + 1))) 0 =
          readU64BE data (8 * (w * i / 64)) := by
        rw [readU64BE_drop]
        have e : 8 * ((w * i - 1) / 64 + 1) + 0 = 8 * (w * i / 64) := by omega
        rw [e]
        exact readU64BE_append (by omega)
      have hT : readU64BE (data ++ trailer) (8 * (w * i / 64)) =
          readU64BE data (8 * (w * i / 64)) := readU64BE_append (by omega)
      have hentry : LogArray.entry ⟨0, len, w, data ++ trailer⟩ i =
          shr64 (readU64BE data (8 * (w * i / 64))) (64 - w) := by
        rw [entry_mk_fast len w (data ++ trailer) i (by omega), hT, hr,
          shl64_zero (readU64BE_lt hbytes (8 * (w * i / 64)))]
      rw [hentry, hsw, Prod.mk.injEq, Prod.mk.injEq]
      refine ⟨rfl, ?_, ?_⟩
      · rw [hdj (i + 1) (by omega)]
        have e5 : 8 * ((w * (i + 1) - 1) / 64) = 8 * (w * i / 64) := by omega
        have e6 : (w * (i + 1) - 1) % 64 + 1 = w := by omega
        have e7 : len - i - 1 = len - (i + 1) := by omega
        rw [e5, e6, e7]
      · rw [List.drop_drop, hcbj (i + 1) (by omega)]
        have e8 : 8 * ((w * i - 1) / 64 + 1) + 8 = 8 * ((w * (i + 1) - 1) / 64 + 1) := by omega
        rw [e8]
    · have eoff : (w * i - 1) % 64 + 1 = w * i % 64 := by omega
      have eq2 : (w * i - 1) / 64 = w * i / 64 := by omega
      rw [eoff, eq2]
      by_cases hstrad : w * i % 64 + w ≤ 64
      · rw [decode_mk_fast (readU64BE data (8 * (w * i / 64))) w (w * i % 64) (len - i)
          ((data ++ extra).drop (8 * (w * i / 64 + 1))) (by omega) hstrad]
        have hT : readU64BE (data ++ trailer) (8 * (w * i / 64)) =
            readU64BE data (8 * (w * i / 64)) := readU64BE_append (by omega)
        have hentry : LogArray.entry ⟨0, len, w, data ++ trailer⟩ i =
            shr64 (shl64 (readU64BE data (8 * (w * i / 64))) (w * i % 64)) (64 - w) := by
          rw [entry_mk_fast len w (data ++ trailer) i hstrad, hT]
        rw [hentry, Prod.mk.injEq, Prod.mk.injEq]
        refine ⟨rfl, ?_, ?_⟩
        · rw [hdj (i + 1) (by omega)]
          have e10 : 8 * ((w * (i + 1) - 1) / 64) = 8 * (w * i / 64) := by omega
          have e11 : (w * (i + 1) - 1) % 64 + 1 = w * i % 64 + w := by omega
          have e7 : len - i - 1 = len - (i + 1) := by omega
          rw [e10, e11, e7]
        · rw [hcbj (i + 1) (by omega)]
          have e9 : 8 * (w * i / 64 + 1) = 8 * ((w * (i + 1) - 1) / 64 + 1) := by omega
          rw [e9]
      · have hF2 : 8 * (w * i / 64) + 16 ≤ data.length := by
          rw [hdlen]
          omega
        have hqlen : ¬ ((data ++ extra).drop (8 * (w * i / 64 + 1))).length < 8 := by
          rw [List.length_drop, List.length_append]
          omega
        rw [decode_mk_straddle (readU64BE data (8 * (w * i / 64))) w (w * i % 64) (len - i)
          ((data ++ extra).drop (8 * (w * i / 64 + 1))) (by omega) (by omega) hqlen (by omega)]
        have hsw : readU64BE ((data ++ extra).drop (8 * (w * i / 64 + 1))) 0 =
            readU64BE data (8 * (w * i / 64) + 8) := by
          rw [readU64BE_drop]
          have e : 8 * (w * i / 64 + 1) + 0 = 8 * (w * i / 64) + 8 := by omega
          rw [e]
          exact readU64BE_append (by omega)
        have hT1 : readU64BE (data ++ trailer) (8 * (w * i / 64)) =
            readU64BE data (8 * (w * i / 64)) := readU64BE_append (by omega)
        have hT2 : readU64BE (data ++ trailer) (8 * (w * i / 64) + 8) =
            readU64BE data (8 * (w * i / 64) + 8) := readU64BE_append (by omega)
        have hentry := entry_mk_straddle len w (data ++ trailer) i (by omega)
        rw [hT1, hT2] at hentry
        rw [hentry, hsw, Prod.mk.injEq, Prod.mk.injEq]
        refine ⟨rfl, ?_, ?_⟩
        · rw [hdj (i + 1) (by omega)]
          have e12 : 8 * ((w * (i + 1) - 1) / 64) = 8 * (w * i / 64) + 8 := by omega
          have e13 : (w * (i + 1) - 1) % 64 + 1 = w - (64 - w * i % 64) := by omega
          have e7 : len - i - 1 = len - (i + 1) := by omega
          rw [e12, e13, e7]
        · rw [List.drop_drop, hcbj (i + 1) (by omega)]
          have e14 : 8 * (w * i / 64 + 1) + 8 = 8 * ((w * (i + 1) - 1) / 64 + 1) := by omega
          rw [e14]


/-- Running the decoder `k` pulls from the state after `i` elements yields
`entry i, …, entry (i+k-1)` and lands in the state after `i + k` elements. -/
theorem decodeRun_sim (w len : Nat) (hw1 : 1 ≤ w) (hw : w ≤ 64) (data extra trailer : List Nat)
    (hbytes : ∀ b ∈ data, b < 256) (hdlen : data.length = 8 * ((w * len + 63) / 64)) :
    ∀ k i, i + k ≤ len →
      decodeRun k (decoderAt w len i data) ((data ++ extra).drop (consumedBytes w i)) =
        ((List.range' i k).map (LogArray.entry ⟨0, len, w, data ++ trailer⟩),
         decoderAt w len (i + k) data,
         (data ++ extra).drop (consumedBytes w (i + k))) := by
  intro k
  induction k with
  | zero =>
    intro i hik
    rw [decodeRun]
    simp [List.range']
  | succ k ih =>
    intro i hik
    rw [decodeRun, decode_step w len hw1 hw data extra trailer hbytes hdlen i (by omega)]
    dsimp only
    rw [ih (i + 1) (by omega)]
    have hr : List.range' i (k + 1) = i :: List.range' (i + 1) k := rfl
    rw [hr]
    have e : i + 1 + k = i + (k + 1) := by omega
    rw [e]
    rfl


/-- C2 (amended to widths `1 ≤ width ≤ 64`): a decoder initialized with
`new_unchecked width length` and fed the `8·⌈length·width/64⌉` data bytes
(plus any `extra`) yields over successive pulls exactly
`entry 0, …, entry (length-1)` of the view over the same data (any trailer),
finishes with `remaining = 0` having consumed exactly the
`⌈length·width/64⌉` data words — the `extra` bytes are untouched — and the
next pull reports `None` and clears the queue. -/
theorem claim_C2_amended (len w : Nat) (data extra trailer : List Nat)
    (hw1 : 1 ≤ w) (hw : w ≤ 64) (hbytes : ∀ b ∈ data, b < 256)
    (hdlen : data.length = 8 * ((len * w + 63) / 64)) :
    (decodeRun len (LogArrayDecoder.new_unchecked w len) (data ++ extra)).1 =
      LogArray.iter ⟨0, len, w, data ++ trailer⟩ ∧
    (decodeRun len (LogArrayDecoder.new_unchecked w len) (data ++ extra)).2.1.remaining = 0 ∧
    (decodeRun len (LogArrayDecoder.new_unchecked w len) (data ++ extra)).2.2 = extra ∧
    LogArrayDecoder.decode
        (decodeRun len (LogArrayDecoder.new_unchecked w len) (data ++ extra)).2.1
        (decodeRun len (LogArrayDecoder.new_unchecked w len) (data ++ extra)).2.2 =
      (none, (decodeRun len (LogArrayDecoder.new_unchecked w len) (data ++ extra)).2.1, []) := by
  have hdlen2 : data.length = 8 * ((w * len + 63) / 64) := by
    rw [hdlen, Nat.mul_comm len w]
  have hrun := decodeRun_sim w len hw1 hw data extra trailer hbytes hdlen2 len 0 (by omega)
  have hd0 : decoderAt w len 0 data = LogArrayDecoder.new_unchecked w len := by
    rw [decoderAt, if_pos rfl]
  have hcb0 : consumedBytes w 0 = 0 := by rw [consumedBytes, if_pos rfl]
  rw [hd0, hcb0, List.drop_zero, Nat.zero_add] at hrun
  rw [hrun]
  dsimp only
  by_cases hlen0 : len = 0
  · subst hlen0
    have hdnil : data = [] := by
      apply List.eq_nil_of_length_eq_zero
      rw [hdlen2]
      omega
    refine ⟨rfl, rfl, ?_, ?_⟩
    · rw [hcb0, List.drop_zero, hdnil, List.nil_append]
    · exact decode_eq_done _ _ rfl
  · have h11 : 1 * 1 ≤ w * len := Nat.mul_le_mul hw1 (by omega)
    have hcbl : consumedBytes w len = data.length := by
      rw [consumedBytes, if_neg hlen0, hdlen2]
      omega
    refine ⟨?_, ?_, ?_, ?_⟩
    · rw [LogArray.iter, List.range_eq_range']
    · rw [decoderAt, if_neg hlen0]
      show len - len = 0
      omega
    · rw [hcbl]
      exact List.drop_left data extra
    · refine decode_eq_done _ _ ?_
      rw [decoderAt, if_neg hlen0]
      show len - len = 0
      omega


/-- C2 counterexample at `width = 0`, `length = 1`, empty data (a well-formed
zero-word stream): the decoder yields `[0]` consuming nothing, but indexed
iteration of the parsed array over the same data yields `[4294967296]` (the
width-0 `entry` bug of C4), so the sequences differ. -/
theorem claim_C2_counterexample :
    (decodeRun 1 (LogArrayDecoder.new_unchecked 0 1) []).1 = [0] ∧
    (decodeRun 1 (LogArrayDecoder.new_unchecked 0 1) []).2.2 = [] ∧
    LogArray.parse [0, 0, 0, 1, 0, 0, 0, 0] =
      .ok { first := 0, len := 1, width := 0, input_buf := [0, 0, 0, 1, 0, 0, 0, 0] } ∧
    LogArray.iter { first := 0, len := 1, width := 0, input_buf := [0, 0, 0, 1, 0, 0, 0, 0] } =
      [4294967296] ∧
    ([0] : List Nat) ≠ [4294967296] :=
  ⟨by decide, by decide, by decide, by decide, by decide⟩

/-- Witness for C2 (amended) at width 17, length 4, over the spec's
straddling two-word example stream. -/
theorem claim_C2_witness :
    (decodeRun 4 (LogArrayDecoder.new_unchecked 17 4)
        ([0, 0, 128, 0, 128, 0, 96, 0, 64, 0, 40, 0, 24, 0, 14, 0] ++ [])).1 =
      LogArray.iter ⟨0, 4, 17,
        [0, 0, 128, 0, 128, 0, 96, 0, 64, 0, 40, 0, 24, 0, 14, 0] ++ [0, 0, 0, 4, 17, 0, 0, 0]⟩ ∧
    (decodeRun 4 (LogArrayDecoder.new_unchecked 17 4)
        ([0, 0, 128, 0, 128, 0, 96, 0, 64, 0, 40, 0, 24, 0, 14, 0] ++ [])).2.1.remaining = 0 ∧
    (decodeRun 4 (LogArrayDecoder.new_unchecked 17 4)
        ([0, 0, 128, 0, 128, 0, 96, 0, 64, 0, 40, 0, 24, 0, 14, 0] ++ [])).2.2 = [] := by
  have h := claim_C2_amended 4 17 [0, 0, 128, 0, 128, 0, 96, 0, 64, 0, 40, 0, 24, 0, 14, 0]
    [] [0, 0, 0, 4, 17, 0, 0, 0] (by decide) (by decide) (by decide) (by decide)
  exact ⟨h.1, h.2.1, h.2.2.1⟩

end TdbSuccinct
